import Mathlib

set_option maxRecDepth 40000

/-!
# A verification development for `src/ceylon_bank_rsa.py`

The Python module under verification is glue code over the pycryptodome
library: `generate_rsa_keys` calls `Crypto.PublicKey.RSA.generate`,
`encrypt_message`/`decrypt_message` call `Crypto.Cipher.PKCS1_OAEP` (whose
default hash is SHA-1, `hLen = 20`) together with `base64` and UTF-8
string codecs, and `get_security_level` is a static table lookup.

This file embeds the reachable behaviour of those functions shallowly:

* byte strings are `List Nat` with every element `< 256`;
* Python's `pow(b, e, n)` is `powMod` (binary exponentiation, proved equal
  to `b ^ e % n`);
* randomness (the RSA key produced by `RSA.generate`, and the OAEP seed
  drawn by `randfunc(hLen)`) is passed explicitly as an argument; the
  documented postcondition of `RSA.generate` is the predicate
  `GeneratedKey`;
* PEM serialization (`export_key` / `import_key`) is modelled as an
  abstract bijection: the exported form carries the key data itself, since
  the only property of the codec the program relies on is
  `import_key (export_key k) = k`;
* Python exceptions become an error type `PyError` with one constructor
  per distinct `raise` site reachable from the embedded functions.
-/

/-- Every entry of the list is a byte value.  Byte strings from Python are
modelled as `List Nat` satisfying this predicate. -/
def IsBytes (l : List Nat) : Prop := ∀ b ∈ l, b < 256

instance : DecidablePred IsBytes := fun l => List.decidableBAll _ l

/-- Big-endian interpretation of a byte list as a natural number. Models
pycryptodome's `Crypto.Util.number.bytes_to_long`. -/
def bytesToNat (bs : List Nat) : Nat :=
  bs.foldl (fun acc b => acc * 256 + b) 0

/-- Big-endian byte representation of `x`, truncated/zero-padded to exactly
`k` bytes (the general pycryptodome `long_to_bytes` is `longToBytes` below;
on every reachable input it agrees with this fixed-width version). -/
def natToBytes : Nat → Nat → List Nat
  | 0, _ => []
  | k + 1, x => natToBytes k (x / 256) ++ [x % 256]

/-- Fuel-indexed bit length (the recursion stops as soon as the argument
reaches `0`, so only `log₂ n` levels are ever demanded). -/
def bitLenAux : Nat → Nat → Nat
  | 0, _ => 0
  | fuel + 1, n => if n = 0 then 0 else bitLenAux fuel (n / 2) + 1

/-- Bit length of a natural number: models Python's `int.bit_length()`,
which is what `Crypto.Util.number.size` returns. -/
def bitLen (n : Nat) : Nat := bitLenAux n n

/-- Fuel-indexed modular exponentiation processing the exponent in base
256, written with a bare `Nat.rec` so that the kernel can evaluate it
lazily on large literals (the recursion stops as soon as the exponent
reaches `0`, so only `log₂ e / 8` levels of the recursor are ever
demanded, keeping the reduction stack shallow). -/
def powModAux (n : Nat) : Nat → Nat → Nat → Nat
  | 0, _, _ => 1 % n
  | fuel + 1, b, e =>
    if e = 0 then 1 % n
    else powModAux n fuel (b ^ 256 % n) (e / 256) * (b ^ (e % 256) % n) % n

/-- Modular exponentiation: models Python's built-in `pow(b, e, n)`
(which is what pycryptodome's `RsaKey._encrypt`/`_decrypt` compute).
Proved equal to `b ^ e % n` in `powMod_spec`. -/
def powMod (b e n : Nat) : Nat := powModAux n e b e

theorem bitLenAux_zero (fuel : Nat) : bitLenAux fuel 0 = 0 := by
  cases fuel <;> rfl

theorem powModAux_succ (n fuel b e : Nat) :
    powModAux n (fuel + 1) b e =
      if e = 0 then 1 % n
      else powModAux n fuel (b ^ 256 % n) (e / 256) * (b ^ (e % 256) % n) % n := rfl

theorem powModAux_spec (n : Nat) :
    ∀ fuel b e, e ≤ fuel → powModAux n fuel b e = b ^ e % n := by
  intro fuel
  induction fuel with
  | zero =>
    intro b e he
    interval_cases e
    simp [powModAux]
  | succ f ih =>
    intro b e he
    rw [powModAux_succ]
    by_cases he0 : e = 0
    · simp [he0]
    · have hdiv : e / 256 ≤ f := by omega
      simp only [he0, if_false]
      rw [ih _ _ hdiv, ← Nat.pow_mod, ← pow_mul, ← Nat.mul_mod, ← pow_add]
      have hsplit : 256 * (e / 256) + e % 256 = e := by omega
      rw [hsplit]

theorem powMod_spec (b e n : Nat) : powMod b e n = b ^ e % n :=
  powModAux_spec n e b e (Nat.le_refl e)

theorem powMod_lt (b e n : Nat) (hn : 0 < n) : powMod b e n < n := by
  rw [powMod_spec]; exact Nat.mod_lt _ hn

theorem bitLenAux_spec (fuel : Nat) :
    ∀ n, n ≤ fuel → n < 2 ^ bitLenAux fuel n ∧ (0 < n → 2 ^ (bitLenAux fuel n - 1) ≤ n) := by
  induction fuel with
  | zero =>
    intro n hn
    interval_cases n
    simp [bitLenAux_zero]
  | succ f ih =>
    intro n hn
    by_cases h0 : n = 0
    · subst h0; simp [bitLenAux_zero]
    · have hstep : bitLenAux (f + 1) n = bitLenAux f (n / 2) + 1 := by
        show (if n = 0 then 0 else bitLenAux f (n / 2) + 1) = _
        simp [h0]
      have hdiv : n / 2 ≤ f := by omega
      obtain ⟨hup, hlow⟩ := ih (n / 2) hdiv
      constructor
      · rw [hstep, pow_succ]
        omega
      · intro _
        rw [hstep]
        by_cases hd0 : n / 2 = 0
        · have : n = 1 := by omega
          subst this
          simp [bitLenAux_zero]
        · have h1 : 2 ^ (bitLenAux f (n / 2) - 1) ≤ n / 2 := hlow (by omega)
          have h2 : 0 < bitLenAux f (n / 2) := by
            by_contra hc
            have : bitLenAux f (n / 2) = 0 := by omega
            rw [this] at hup
            omega
          have h3 : bitLenAux f (n / 2) + 1 - 1 = (bitLenAux f (n / 2) - 1) + 1 := by omega
          rw [h3, pow_succ]
          omega

theorem bitLen_lt (n : Nat) : n < 2 ^ bitLen n :=
  (bitLenAux_spec n n (Nat.le_refl n)).1

theorem bitLen_le (n : Nat) (hn : 0 < n) : 2 ^ (bitLen n - 1) ≤ n :=
  (bitLenAux_spec n n (Nat.le_refl n)).2 hn

/-- The bit length of `n` is `s` exactly when `2 ^ (s - 1) ≤ n < 2 ^ s`
(for positive `s`). -/
theorem bitLen_eq_of_bounds (n s : Nat) (hs : 0 < s)
    (hlow : 2 ^ (s - 1) ≤ n) (hhigh : n < 2 ^ s) : bitLen n = s := by
  have hn : 0 < n := lt_of_lt_of_le (Nat.pos_pow_of_pos _ (by omega)) hlow
  have h1 : n < 2 ^ bitLen n := bitLen_lt n
  have h2 : 2 ^ (bitLen n - 1) ≤ n := bitLen_le n hn
  have hb0 : 0 < bitLen n := by
    by_contra hc
    have : bitLen n = 0 := by omega
    rw [this] at h1
    omega
  have hlt1 : bitLen n - 1 < s := by
    by_contra hc
    have : 2 ^ s ≤ 2 ^ (bitLen n - 1) := Nat.pow_le_pow_right (by omega) (by omega)
    omega
  have hlt2 : s - 1 < bitLen n := by
    by_contra hc
    have : 2 ^ bitLen n ≤ 2 ^ (s - 1) := Nat.pow_le_pow_right (by omega) (by omega)
    omega
  omega

theorem length_natToBytes (k x : Nat) : (natToBytes k x).length = k := by
  induction k generalizing x with
  | zero => rfl
  | succ k ih => simp [natToBytes, ih]

theorem isBytes_natToBytes (k x : Nat) : IsBytes (natToBytes k x) := by
  induction k generalizing x with
  | zero => intro b hb; simp [natToBytes] at hb
  | succ k ih =>
    intro b hb
    simp only [natToBytes, List.mem_append, List.mem_singleton] at hb
    rcases hb with hb | hb
    · exact ih _ b hb
    · subst hb; exact Nat.mod_lt _ (by omega)

theorem bytesToNat_append_singleton (l : List Nat) (b : Nat) :
    bytesToNat (l ++ [b]) = bytesToNat l * 256 + b := by
  simp [bytesToNat, List.foldl_append]

theorem bytesToNat_natToBytes (k x : Nat) (hx : x < 256 ^ k) :
    bytesToNat (natToBytes k x) = x := by
  induction k generalizing x with
  | zero =>
    interval_cases x
    rfl
  | succ k ih =>
    have hdiv : x / 256 < 256 ^ k := by
      rw [Nat.div_lt_iff_lt_mul (by omega)]
      calc x < 256 ^ (k + 1) := hx
        _ = 256 ^ k * 256 := by rw [pow_succ]
    rw [natToBytes, bytesToNat_append_singleton, ih _ hdiv]
    omega

theorem bytesToNat_lt (l : List Nat) (hl : IsBytes l) :
    bytesToNat l < 256 ^ l.length := by
  induction l using List.reverseRecOn with
  | nil => simp [bytesToNat]
  | append_singleton l b ih =>
    have hb : b < 256 := hl b (by simp)
    have hl' : IsBytes l := fun x hx => hl x (by simp [hx])
    have := ih hl'
    rw [bytesToNat_append_singleton]
    simp only [List.length_append, List.length_singleton]
    rw [pow_succ]
    omega

theorem natToBytes_bytesToNat (l : List Nat) (hl : IsBytes l) :
    natToBytes l.length (bytesToNat l) = l := by
  induction l using List.reverseRecOn with
  | nil => rfl
  | append_singleton l b ih =>
    have hb : b < 256 := hl b (by simp)
    have hl' : IsBytes l := fun x hx => hl x (by simp [hx])
    rw [bytesToNat_append_singleton]
    simp only [List.length_append, List.length_singleton]
    rw [natToBytes]
    have h1 : (bytesToNat l * 256 + b) / 256 = bytesToNat l := by omega
    have h2 : (bytesToNat l * 256 + b) % 256 = b := by omega
    rw [h1, h2, ih hl']

/-- Byte-wise XOR of two equal-length byte strings; models pycryptodome's
`Crypto.Util.strxor.strxor` on its valid (equal-length) inputs.  The
places where the Python code could reach `strxor` with unequal lengths
raise a `ValueError`; the embedded cipher guards that case explicitly. -/
def xorBytes (a b : List Nat) : List Nat := List.zipWith (· ^^^ ·) a b

theorem length_xorBytes (a b : List Nat) :
    (xorBytes a b).length = min a.length b.length := by
  simp [xorBytes]

theorem xorBytes_cancel (a m : List Nat) (h : a.length = m.length) :
    xorBytes (xorBytes a m) m = a := by
  induction a generalizing m with
  | nil => cases m <;> rfl
  | cons x xs ih =>
    cases m with
    | nil => simp at h
    | cons y ys =>
      simp only [xorBytes, List.zipWith_cons_cons, List.cons.injEq]
      constructor
      · exact Nat.xor_cancel_right y x
      · exact ih ys (by simpa using h)

theorem isBytes_xorBytes (a b : List Nat) (ha : IsBytes a) (hb : IsBytes b) :
    IsBytes (xorBytes a b) := by
  induction a generalizing b with
  | nil => intro x hx; simp [xorBytes] at hx
  | cons x xs ih =>
    cases b with
    | nil => intro y hy; simp [xorBytes] at hy
    | cons y ys =>
      intro z hz
      simp only [xorBytes, List.zipWith_cons_cons, List.mem_cons] at hz
      rcases hz with hz | hz
      · subst hz
        have h256 : (256 : Nat) = 2 ^ 8 := by norm_num
        rw [h256]
        exact Nat.xor_lt_two_pow (h256 ▸ ha x (by simp)) (h256 ▸ hb y (by simp))
      · exact ih ys (fun u hu => ha u (by simp [hu])) (fun u hu => hb u (by simp [hu])) z hz

/-! ## SHA-1 and MGF1

`PKCS1_OAEP.new(key)` uses SHA-1 by default (`hLen = 20`) and the mask
generation function MGF1 instantiated with the same hash.  The claims
under verification depend only on the digest having 20 byte-valued
entries and on it being a function of the input, but the compression
function is embedded in full so that the cipher model is executable. -/

/-- Truncation to a 32-bit word. -/
def w32 (x : Nat) : Nat := x % 4294967296

/-- Left rotation of a 32-bit word by `s` bits. -/
def rotl32 (s x : Nat) : Nat := (x * 2 ^ s + x / 2 ^ (32 - s)) % 4294967296

/-- Big-endian 32-bit words from a byte list (groups of four bytes). -/
def bytesToWords : List Nat → List Nat
  | b0 :: b1 :: b2 :: b3 :: rest => (((b0 * 256 + b1) * 256 + b2) * 256 + b3) :: bytesToWords rest
  | _ => []

/-- The four bytes of a 32-bit word, big-endian. -/
def wordToBytes (w : Nat) : List Nat :=
  [w / 16777216 % 256, w / 65536 % 256, w / 256 % 256, w % 256]

/-- SHA-1 message padding: `0x80`, zero padding to 56 mod 64, then the
bit length as a 64-bit big-endian integer. -/
def sha1Pad (msg : List Nat) : List Nat :=
  msg ++ [128] ++ List.replicate ((64 - (msg.length + 9) % 64) % 64) 0
    ++ natToBytes 8 (msg.length * 8)

/-- SHA-1 round constant for round `t`. -/
def sha1K (t : Nat) : Nat :=
  if t < 20 then 1518500249
  else if t < 40 then 1859775393
  else if t < 60 then 2400959708
  else 3395469782

/-- SHA-1 round mixing function for round `t`. -/
def sha1F (t b c d : Nat) : Nat :=
  if t < 20 then (b &&& c) ||| ((b ^^^ 4294967295) &&& d)
  else if t < 40 then b ^^^ c ^^^ d
  else if t < 60 then (b &&& c) ||| (b &&& d) ||| (c &&& d)
  else b ^^^ c ^^^ d

/-- Extension of the 16-word block to the 80-word message schedule
(`fuel` counts the words still to append). -/
def sha1Extend : Nat → List Nat → List Nat
  | 0, ws => ws
  | fuel + 1, ws =>
    let t := ws.length
    sha1Extend fuel (ws ++ [rotl32 1 ((ws.getD (t - 3) 0 ^^^ ws.getD (t - 8) 0)
      ^^^ (ws.getD (t - 14) 0 ^^^ ws.getD (t - 16) 0))])

/-- The 80 SHA-1 rounds over one schedule, starting from round `t`. -/
def sha1Rounds (ws : List Nat) : Nat → Nat → Nat × Nat × Nat × Nat × Nat → Nat × Nat × Nat × Nat × Nat
  | 0, _, st => st
  | fuel + 1, t, (a, b, c, d, e) =>
    sha1Rounds ws fuel (t + 1)
      (w32 (rotl32 5 a + sha1F t b c d + e + sha1K t + ws.getD t 0), a, rotl32 30 b, c, d)

/-- Processing of the padded message, 64-byte chunk by chunk. -/
def sha1Chunks : Nat → List Nat → Nat × Nat × Nat × Nat × Nat → Nat × Nat × Nat × Nat × Nat
  | 0, _, h => h
  | fuel + 1, bytes, (h0, h1, h2, h3, h4) =>
    match bytes with
    | [] => (h0, h1, h2, h3, h4)
    | _ :: _ =>
      let ws := sha1Extend 64 (bytesToWords (bytes.take 64))
      let r := sha1Rounds ws 80 0 (h0, h1, h2, h3, h4)
      sha1Chunks fuel (bytes.drop 64)
        (w32 (h0 + r.1), w32 (h1 + r.2.1), w32 (h2 + r.2.2.1), w32 (h3 + r.2.2.2.1), w32 (h4 + r.2.2.2.2))

/-- SHA-1 digest (20 bytes) of a byte string; models `Crypto.Hash.SHA1`. -/
def sha1 (msg : List Nat) : List Nat :=
  let padded := sha1Pad msg
  let h := sha1Chunks padded.length padded (1732584193, 4023233417, 2562383102, 271733878, 3285377520)
  wordToBytes h.1 ++ wordToBytes h.2.1 ++ wordToBytes h.2.2.1
    ++ wordToBytes h.2.2.2.1 ++ wordToBytes h.2.2.2.2

theorem length_sha1 (msg : List Nat) : (sha1 msg).length = 20 := by
  simp [sha1, wordToBytes]

theorem isBytes_wordToBytes (w : Nat) : IsBytes (wordToBytes w) := by
  intro b hb
  simp only [wordToBytes, List.mem_cons, List.not_mem_nil, or_false] at hb
  rcases hb with h | h | h | h <;> (subst h; exact Nat.mod_lt _ (by omega))

theorem isBytes_sha1 (msg : List Nat) : IsBytes (sha1 msg) := by
  intro b hb
  unfold sha1 at hb
  simp only [List.mem_append] at hb
  rcases hb with ((((h | h) | h) | h) | h) <;> exact isBytes_wordToBytes _ b h

/-- pycryptodome's `Crypto.Util.number.long_to_bytes`: minimal big-endian
byte string of `x`, left-padded with zeros to a multiple of `blocksize`. -/
def longToBytes (x blocksize : Nat) : List Nat :=
  let bl := max 1 ((bitLen x + 7) / 8)
  natToBytes (if blocksize = 0 then bl else blocksize * ((bl + blocksize - 1) / blocksize)) x

theorem bitLen_le_of_lt (x k : Nat) (h : x < 2 ^ k) : bitLen x ≤ k := by
  by_contra hc
  have h1 : k ≤ bitLen x - 1 := by omega
  have hx : 0 < x := by
    rcases Nat.eq_zero_or_pos x with h0 | h0
    · subst h0
      have : bitLen 0 = 0 := by simp [bitLen, bitLenAux_zero]
      omega
    · exact h0
  have := bitLen_le x hx
  have h2 : (2 : Nat) ^ k ≤ 2 ^ (bitLen x - 1) := Nat.pow_le_pow_right (by omega) h1
  omega

/-- On every input reachable from the cipher (`x < 256 ^ k`, `0 < k`),
`longToBytes` is exactly the `k`-byte big-endian encoding. -/
theorem longToBytes_eq (x k : Nat) (hk : 0 < k) (hx : x < 256 ^ k) :
    longToBytes x k = natToBytes k x := by
  have h28 : (256 : Nat) ^ k = 2 ^ (8 * k) := by
    rw [pow_mul]
    norm_num
  have hbl : bitLen x ≤ 8 * k := bitLen_le_of_lt x (8 * k) (h28 ▸ hx)
  have hble : (bitLen x + 7) / 8 ≤ k := by omega
  unfold longToBytes
  have hk0 : ¬ (k = 0) := by omega
  simp only [hk0, if_false]
  congr 1
  have hdiv1 : (max 1 ((bitLen x + 7) / 8) + k - 1) / k = 1 := by
    apply Nat.div_eq_of_lt_le
    · omega
    · omega
  rw [hdiv1, Nat.mul_one]

/-- MGF1 block concatenation: `fuel` hash blocks starting at `counter`. -/
def mgf1Blocks (seed : List Nat) : Nat → Nat → List Nat
  | 0, _ => []
  | fuel + 1, counter => sha1 (seed ++ longToBytes counter 4) ++ mgf1Blocks seed fuel (counter + 1)

/-- MGF1 mask generation function over SHA-1, as in
`Crypto.Signature.pss.MGF1` (used by `PKCS1_OAEP` for both masks). -/
def MGF1 (mgfSeed : List Nat) (maskLen : Nat) : List Nat :=
  (mgf1Blocks mgfSeed ((maskLen + 19) / 20) 0).take maskLen

theorem length_mgf1Blocks (seed : List Nat) (fuel counter : Nat) :
    (mgf1Blocks seed fuel counter).length = 20 * fuel := by
  induction fuel generalizing counter with
  | zero => rfl
  | succ f ih => simp [mgf1Blocks, length_sha1, ih]; omega

theorem length_MGF1 (seed : List Nat) (maskLen : Nat) :
    (MGF1 seed maskLen).length = maskLen := by
  unfold MGF1
  rw [List.length_take, length_mgf1Blocks]
  omega

theorem isBytes_mgf1Blocks (seed : List Nat) (fuel counter : Nat) :
    IsBytes (mgf1Blocks seed fuel counter) := by
  induction fuel generalizing counter with
  | zero => intro b hb; simp [mgf1Blocks] at hb
  | succ f ih =>
    intro b hb
    simp only [mgf1Blocks, List.mem_append] at hb
    rcases hb with hb | hb
    · exact isBytes_sha1 _ b hb
    · exact ih (counter + 1) b hb

theorem isBytes_MGF1 (seed : List Nat) (maskLen : Nat) : IsBytes (MGF1 seed maskLen) := by
  intro b hb
  exact isBytes_mgf1Blocks seed _ 0 b (List.mem_of_mem_take hb)

/-! ## Base64

`encrypt_message` returns `base64.b64encode(ciphertext).decode('utf-8')`
and `decrypt_message` begins with `base64.b64decode(encrypted_message)`.
Decoding of a `str` argument first requires the string to be ASCII,
discards characters outside the base64 alphabet, then requires the
remaining length to be a multiple of four; `=` padding is accepted at the
end of the data (the model rejects data after the padding, which
`binascii` tolerates in some versions only on exotic inputs never
produced by the encoder). -/

/-- The standard base64 alphabet. -/
def b64Alphabet : List Char :=
  ("ABCDEFGHIJKLMNOPQRSTUVWXYZabcdefghijklmnopqrstuvwxyz0123456789+/").data

/-- The base64 padding character. -/
def b64Pad : Char := '='

/-- The alphabet character with index `v` (total, defaulting to the
padding character off-range; only applied to `v < 64`). -/
def b64Char (v : Nat) : Char := b64Alphabet.getD v b64Pad

/-- Base64 encoding of a byte string, three bytes at a time. -/
def b64EncodeAux : List Nat → List Char
  | [] => []
  | [b0] => [b64Char (b0 / 4), b64Char (b0 % 4 * 16), b64Pad, b64Pad]
  | [b0, b1] => [b64Char (b0 / 4), b64Char (b0 % 4 * 16 + b1 / 16), b64Char (b1 % 16 * 4), b64Pad]
  | b0 :: b1 :: b2 :: rest =>
    b64Char (b0 / 4) :: b64Char (b0 % 4 * 16 + b1 / 16) :: b64Char (b1 % 16 * 4 + b2 / 64)
      :: b64Char (b2 % 64) :: b64EncodeAux rest

/-- Models `base64.b64encode(bs).decode('utf-8')`. -/
def base64Encode (bs : List Nat) : String := String.mk (b64EncodeAux bs)

/-- Index of a character in a list, counting from `i`. -/
def b64ValAux : List Char → Nat → Char → Option Nat
  | [], _, _ => none
  | a :: as, i, c => if c = a then some i else b64ValAux as (i + 1) c

/-- The 6-bit value of a base64 alphabet character. -/
def b64Val (c : Char) : Option Nat := b64ValAux b64Alphabet 0 c

/-- Base64 decoding of a filtered character list, four characters at a
time, with `=` padding allowed in the final quad. -/
def b64DecodeAux : List Char → Option (List Nat)
  | [] => some []
  | c0 :: c1 :: c2 :: c3 :: rest =>
    match b64Val c0, b64Val c1 with
    | some v0, some v1 =>
      if c2 = b64Pad then
        if c3 = b64Pad ∧ rest = [] then some [v0 * 4 + v1 / 16] else none
      else
        match b64Val c2 with
        | some v2 =>
          if c3 = b64Pad then
            if rest = [] then some [v0 * 4 + v1 / 16, v1 % 16 * 16 + v2 / 4] else none
          else
            match b64Val c3 with
            | some v3 =>
              match b64DecodeAux rest with
              | some tl => some ((v0 * 4 + v1 / 16) :: (v1 % 16 * 16 + v2 / 4) :: (v2 % 4 * 64 + v3) :: tl)
              | none => none
            | none => none
        | none => none
    | _, _ => none
  | _ => none

/-- Models `base64.b64decode(s)` for a `str` argument (ASCII check from
`s.encode('ascii')`, removal of non-alphabet characters, length check,
quad decoding); `none` stands for the raised `binascii.Error` /
`ValueError`. -/
def base64Decode (s : String) : Option (List Nat) :=
  if s.data.all (fun c => c.toNat < 128) then
    let filtered := s.data.filter (fun c => b64Alphabet.contains c || c == b64Pad)
    if filtered.length % 4 = 0 then b64DecodeAux filtered else none
  else none

theorem b64Val_b64Char : ∀ v, v < 64 → b64Val (b64Char v) = some v := by decide

theorem b64Char_ne_pad : ∀ v, v < 64 → b64Char v ≠ b64Pad := by decide

theorem b64Char_ascii : ∀ v, v < 64 → (b64Char v).toNat < 128 := by decide

theorem b64Char_mem : ∀ v, v < 64 → b64Alphabet.contains (b64Char v) = true := by decide

theorem b64ValAux_lt (l : List Char) :
    ∀ i c v, b64ValAux l i c = some v → v < i + l.length := by
  induction l with
  | nil => intro i c v h; simp [b64ValAux] at h
  | cons a as ih =>
    intro i c v h
    simp only [b64ValAux] at h
    by_cases hc : c = a
    · simp only [hc, if_true] at h
      cases h
      simp
    · simp only [hc, if_false] at h
      have := ih (i + 1) c v h
      simp only [List.length_cons]
      omega

theorem b64Val_lt (c : Char) (v : Nat) (h : b64Val c = some v) : v < 64 :=
  b64ValAux_lt b64Alphabet 0 c v h


theorem b64Quad_a : ∀ b0 < 256, ∀ b1 < 256, b0 / 4 * 4 + (b0 % 4 * 16 + b1 / 16) / 16 = b0 := by
  intro b0 h0 b1 h1
  have hin : (b0 % 4 * 16 + b1 / 16) / 16 = b0 % 4 := by
    rw [Nat.mul_comm (b0 % 4) 16, Nat.mul_add_div (by omega)]
    omega
  omega

theorem b64Quad_b : ∀ b0 < 256, ∀ b1 < 256, (b0 % 4 * 16 + b1 / 16) % 16 = b1 / 16 := by
  intro b0 h0 b1 h1
  rw [Nat.mul_comm (b0 % 4) 16, Nat.mul_add_mod]
  omega

theorem b64Quad_c : ∀ b1 < 256, ∀ b2 < 256, b1 / 16 * 16 + (b1 % 16 * 4 + b2 / 64) / 4 = b1 := by
  intro b1 h1 b2 h2
  have hin : (b1 % 16 * 4 + b2 / 64) / 4 = b1 % 16 := by
    rw [Nat.mul_comm (b1 % 16) 4, Nat.mul_add_div (by omega)]
    omega
  omega

theorem b64Quad_d : ∀ b1 < 256, ∀ b2 < 256, (b1 % 16 * 4 + b2 / 64) % 4 * 64 + b2 % 64 = b2 := by
  intro b1 h1 b2 h2
  rw [Nat.mul_comm (b1 % 16) 4, Nat.mul_add_mod]
  omega

theorem b64Quad_e : ∀ b0 < 256, b0 / 4 * 4 + b0 % 4 * 16 / 16 = b0 := by
  intro b0 h0
  rw [Nat.mul_div_cancel _ (by omega)]
  omega

theorem b64Quad_f : ∀ b1 < 256, b1 % 16 * 4 / 4 = b1 % 16 := by
  intro b1 h1
  rw [Nat.mul_div_cancel _ (by omega)]

theorem b64DecodeAux_b64EncodeAux (bs : List Nat) (h : IsBytes bs) :
    b64DecodeAux (b64EncodeAux bs) = some bs := by
  induction bs using b64EncodeAux.induct with
  | case1 => rfl
  | case2 b0 =>
    have hb0 : b0 < 256 := h b0 (by simp)
    have hv0 : b0 / 4 < 64 := by omega
    have hv1 : b0 % 4 * 16 < 64 := by omega
    simp only [b64EncodeAux, b64DecodeAux, b64Val_b64Char _ hv0, b64Val_b64Char _ hv1]
    simp only [eq_self_iff_true, if_true, and_self, Option.some.injEq, List.cons.injEq, and_true]
    exact b64Quad_e b0 hb0
  | case3 b0 b1 =>
    have hb0 : b0 < 256 := h b0 (by simp)
    have hb1 : b1 < 256 := h b1 (by simp)
    have hv0 : b0 / 4 < 64 := by omega
    have hv1 : b0 % 4 * 16 + b1 / 16 < 64 := by omega
    have hv2 : b1 % 16 * 4 < 64 := by omega
    simp only [b64EncodeAux, b64DecodeAux, b64Val_b64Char _ hv0, b64Val_b64Char _ hv1,
      b64Val_b64Char _ hv2]
    rw [if_neg (b64Char_ne_pad _ hv2)]
    simp only [eq_self_iff_true, if_true, and_self, Option.some.injEq, List.cons.injEq, and_true]
    constructor
    · exact b64Quad_a b0 hb0 b1 hb1
    · rw [b64Quad_b b0 hb0 b1 hb1, b64Quad_f b1 hb1]
      omega
  | case4 b0 b1 b2 rest ih =>
    have hb0 : b0 < 256 := h b0 (by simp)
    have hb1 : b1 < 256 := h b1 (by simp)
    have hb2 : b2 < 256 := h b2 (by simp)
    have hrest : IsBytes rest := fun x hx => h x (by simp [hx])
    have hv0 : b0 / 4 < 64 := by omega
    have hv1 : b0 % 4 * 16 + b1 / 16 < 64 := by omega
    have hv2 : b1 % 16 * 4 + b2 / 64 < 64 := by omega
    have hv3 : b2 % 64 < 64 := by omega
    simp only [b64EncodeAux, b64DecodeAux, b64Val_b64Char _ hv0, b64Val_b64Char _ hv1,
      b64Val_b64Char _ hv2, b64Val_b64Char _ hv3]
    rw [if_neg (b64Char_ne_pad _ hv2), if_neg (b64Char_ne_pad _ hv3)]
    rw [ih hrest]
    simp only [eq_self_iff_true, if_true, and_self, Option.some.injEq, List.cons.injEq, and_true]
    refine ⟨b64Quad_a b0 hb0 b1 hb1, ?_, ?_⟩
    · rw [b64Quad_b b0 hb0 b1 hb1]
      exact b64Quad_c b1 hb1 b2 hb2
    · exact b64Quad_d b1 hb1 b2 hb2

theorem b64Char_mem_alphabet : ∀ v, v < 64 → b64Alphabet.contains (b64Char v) = true := by
  decide

theorem b64EncodeAux_good (bs : List Nat) (h : IsBytes bs) :
    ∀ c ∈ b64EncodeAux bs, c.toNat < 128 ∧ (b64Alphabet.contains c || c == b64Pad) = true := by
  have hpad : b64Pad.toNat < 128 ∧ (b64Alphabet.contains b64Pad || b64Pad == b64Pad) = true := by
    decide
  have hchar : ∀ v, v < 64 →
      (b64Char v).toNat < 128 ∧ (b64Alphabet.contains (b64Char v) || b64Char v == b64Pad) = true := by
    intro v hv
    refine ⟨b64Char_ascii v hv, ?_⟩
    rw [b64Char_mem_alphabet v hv]
    simp
  induction bs using b64EncodeAux.induct with
  | case1 => intro c hc; simp [b64EncodeAux] at hc
  | case2 b0 =>
    have hb0 : b0 < 256 := h b0 (by simp)
    intro c hc
    simp only [b64EncodeAux, List.mem_cons, List.not_mem_nil, or_false] at hc
    rcases hc with rfl | rfl | rfl | rfl
    · exact hchar _ (by omega)
    · exact hchar _ (by omega)
    · exact hpad
    · exact hpad
  | case3 b0 b1 =>
    have hb0 : b0 < 256 := h b0 (by simp)
    have hb1 : b1 < 256 := h b1 (by simp)
    intro c hc
    simp only [b64EncodeAux, List.mem_cons, List.not_mem_nil, or_false] at hc
    rcases hc with rfl | rfl | rfl | rfl
    · exact hchar _ (by omega)
    · exact hchar _ (by omega)
    · exact hchar _ (by omega)
    · exact hpad
  | case4 b0 b1 b2 rest ih =>
    have hb0 : b0 < 256 := h b0 (by simp)
    have hb1 : b1 < 256 := h b1 (by simp)
    have hb2 : b2 < 256 := h b2 (by simp)
    have hrest : IsBytes rest := fun x hx => h x (by simp [hx])
    intro c hc
    simp only [b64EncodeAux, List.mem_cons] at hc
    rcases hc with rfl | rfl | rfl | rfl | hc
    · exact hchar _ (by omega)
    · exact hchar _ (by omega)
    · exact hchar _ (by omega)
    · exact hchar _ (by omega)
    · exact ih hrest c hc

theorem length_b64EncodeAux_mod (bs : List Nat) : (b64EncodeAux bs).length % 4 = 0 := by
  induction bs using b64EncodeAux.induct with
  | case1 => simp [b64EncodeAux]
  | case2 b0 => simp [b64EncodeAux]
  | case3 b0 b1 => simp [b64EncodeAux]
  | case4 b0 b1 b2 rest ih =>
    simp only [b64EncodeAux, List.length_cons]
    omega

/-- Decoding inverts encoding on byte strings: the model of
`base64.b64decode(base64.b64encode(bs).decode('utf-8'))` returns `bs`. -/
theorem base64Decode_base64Encode (bs : List Nat) (h : IsBytes bs) :
    base64Decode (base64Encode bs) = some bs := by
  unfold base64Decode base64Encode
  have hdata : (String.mk (b64EncodeAux bs)).data = b64EncodeAux bs := rfl
  rw [hdata]
  have hgood := b64EncodeAux_good bs h
  have hascii : (b64EncodeAux bs).all (fun c => decide (c.toNat < 128)) = true := by
    rw [List.all_eq_true]
    intro c hc
    exact decide_eq_true (hgood c hc).1
  have hfilter : (b64EncodeAux bs).filter (fun c => b64Alphabet.contains c || c == b64Pad)
      = b64EncodeAux bs := by
    rw [List.filter_eq_self]
    intro c hc
    exact (hgood c hc).2
  rw [if_pos hascii]
  simp only [hfilter, length_b64EncodeAux_mod, if_pos rfl]
  exact b64DecodeAux_b64EncodeAux bs h

theorem isBytes_b64DecodeAux :
    ∀ N l bs, l.length ≤ N → b64DecodeAux l = some bs → IsBytes bs := by
  intro N
  induction N with
  | zero =>
    intro l bs hlen h
    cases l with
    | nil =>
      cases h
      intro b hb
      simp at hb
    | cons a as => simp at hlen
  | succ N ih =>
    intro l bs hlen h
    match l with
    | [] =>
      cases h
      intro b hb
      simp at hb
    | [c0] => simp [b64DecodeAux] at h
    | [c0, c1] => simp [b64DecodeAux] at h
    | [c0, c1, c2] => simp [b64DecodeAux] at h
    | c0 :: c1 :: c2 :: c3 :: rest =>
      simp only [b64DecodeAux] at h
      split at h
      · rename_i v0 v1 hv0 hv1
        have hb0 := b64Val_lt _ _ hv0
        have hb1 := b64Val_lt _ _ hv1
        split at h
        · split at h
          · cases h
            intro b hb
            simp only [List.mem_singleton] at hb
            omega
          · exact absurd h (by simp)
        · split at h
          · rename_i v2 hv2
            have hb2 := b64Val_lt _ _ hv2
            split at h
            · split at h
              · cases h
                intro b hb
                simp only [List.mem_cons, List.not_mem_nil, or_false] at hb
                rcases hb with rfl | rfl <;> omega
              · exact absurd h (by simp)
            · split at h
              · rename_i v3 hv3
                have hb3 := b64Val_lt _ _ hv3
                split at h
                · rename_i tl htl
                  cases h
                  have hrest : IsBytes tl := by
                    apply ih rest tl ?_ htl
                    simp only [List.length_cons] at hlen
                    omega
                  intro b hb
                  simp only [List.mem_cons] at hb
                  rcases hb with rfl | rfl | rfl | hb
                  · omega
                  · omega
                  · omega
                  · exact hrest b hb
                · exact absurd h (by simp)
              · exact absurd h (by simp)
          · exact absurd h (by simp)
      · exact absurd h (by simp)

/-- Bytes produced by a successful `base64.b64decode` are byte values. -/
theorem isBytes_base64Decode (s : String) (ct : List Nat) (h : base64Decode s = some ct) :
    IsBytes ct := by
  unfold base64Decode at h
  split at h
  · simp only at h
    split at h
    · exact isBytes_b64DecodeAux _ _ ct (Nat.le_refl _) h
    · exact absurd h (by simp)
  · exact absurd h (by simp)

/-! ## UTF-8

`encrypt_message` begins with `message.encode('utf-8')` and
`decrypt_message` ends with `decrypted.decode('utf-8')`.  A Lean `String`
carries exactly the Unicode scalar values a surrogate-free Python `str`
does, so encoding is total; strict decoding (Python's default error
handler) rejects invalid starts, truncated or invalid continuations,
overlong forms, surrogates and values above `0x10FFFF`. -/

/-- A Unicode scalar value: below `0x110000` and not a surrogate. -/
def ValidScalar (v : Nat) : Prop := v < 1114112 ∧ ¬ (55296 ≤ v ∧ v < 57344)

instance : DecidablePred ValidScalar := fun v => by unfold ValidScalar; infer_instance

/-- UTF-8 encoding of one scalar value. -/
def utf8EncodeScalar (v : Nat) : List Nat :=
  if v < 128 then [v]
  else if v < 2048 then [192 + v / 64, 128 + v % 64]
  else if v < 65536 then [224 + v / 4096, 128 + v / 64 % 64, 128 + v % 64]
  else [240 + v / 262144, 128 + v / 4096 % 64, 128 + v / 64 % 64, 128 + v % 64]

/-- Models Python `message.encode('utf-8')`. -/
def utf8Encode (s : String) : List Nat :=
  (s.data.map (fun c => utf8EncodeScalar c.toNat)).flatten

/-- A UTF-8 continuation byte (`0x80`–`0xBF`). -/
def isCont (b : Nat) : Bool := 128 ≤ b && b < 192

/-- Decoding of one UTF-8 sequence from byte `b` followed by `bs`:
the scalar value and the remaining bytes, or `none` on an invalid start
byte, truncated or invalid continuation, overlong form, surrogate, or
value above `0x10FFFF` (strict mode, as Python's default error handler).
-/
def utf8DecodeOne (b : Nat) (bs : List Nat) : Option (Nat × List Nat) :=
  if b < 128 then some (b, bs)
  else if b < 194 then none
  else if b < 224 then
    match bs with
    | b1 :: bs2 => if isCont b1 then some ((b - 192) * 64 + (b1 - 128), bs2) else none
    | [] => none
  else if b < 240 then
    match bs with
    | b1 :: b2 :: bs2 =>
      if isCont b1 && isCont b2 then
        if 2048 ≤ (b - 224) * 4096 + (b1 - 128) * 64 + (b2 - 128) ∧
            ¬ (55296 ≤ (b - 224) * 4096 + (b1 - 128) * 64 + (b2 - 128) ∧
               (b - 224) * 4096 + (b1 - 128) * 64 + (b2 - 128) < 57344) then
          some ((b - 224) * 4096 + (b1 - 128) * 64 + (b2 - 128), bs2)
        else none
      else none
    | _ => none
  else if b < 245 then
    match bs with
    | b1 :: b2 :: b3 :: bs2 =>
      if isCont b1 && isCont b2 && isCont b3 then
        if 65536 ≤ (b - 240) * 262144 + (b1 - 128) * 4096 + (b2 - 128) * 64 + (b3 - 128) ∧
            (b - 240) * 262144 + (b1 - 128) * 4096 + (b2 - 128) * 64 + (b3 - 128) < 1114112 then
          some ((b - 240) * 262144 + (b1 - 128) * 4096 + (b2 - 128) * 64 + (b3 - 128), bs2)
        else none
      else none
    | _ => none
  else none

/-- Strict UTF-8 decoding of a byte string to its scalar values (fuel is
the list length; each sequence consumes at least one byte); `none` models
a raised `UnicodeDecodeError`. -/
def utf8DecodeScalarsAux : Nat → List Nat → Option (List Nat)
  | _, [] => some []
  | 0, _ :: _ => none
  | fuel + 1, b :: bs =>
    match utf8DecodeOne b bs with
    | some (v, rest) =>
      match utf8DecodeScalarsAux fuel rest with
      | some vs => some (v :: vs)
      | none => none
    | none => none

/-- Strict UTF-8 decoding of a byte string to its scalar values. -/
def utf8DecodeScalars (bs : List Nat) : Option (List Nat) :=
  utf8DecodeScalarsAux bs.length bs

/-- Models Python `decrypted.decode('utf-8')`. -/
def utf8Decode (bs : List Nat) : Option String :=
  match utf8DecodeScalars bs with
  | some vs => some (String.mk (vs.map Char.ofNat))
  | none => none

theorem isCont_eq_true (b : Nat) (h1 : 128 ≤ b) (h2 : b < 192) : isCont b = true := by
  simp [isCont]
  omega


theorem utf8EncodeScalar_ne_nil (v : Nat) : utf8EncodeScalar v ≠ [] := by
  unfold utf8EncodeScalar
  split
  · simp
  · split
    · simp
    · split <;> simp

/-- Decoding one sequence inverts encoding of a valid scalar. -/
theorem utf8DecodeOne_encodeScalar (v : Nat) (hv : ValidScalar v) (tail : List Nat) :
    ∃ b br, utf8EncodeScalar v = b :: br ∧ utf8DecodeOne b (br ++ tail) = some (v, tail) := by
  by_cases h1 : v < 128
  · refine ⟨v, [], by simp [utf8EncodeScalar, h1], ?_⟩
    simp [utf8DecodeOne, h1]
  · by_cases h2 : v < 2048
    · refine ⟨192 + v / 64, [128 + v % 64], by simp [utf8EncodeScalar, h1, h2], ?_⟩
      unfold utf8DecodeOne
      rw [if_neg (by omega), if_neg (by omega), if_pos (by omega)]
      simp only [List.cons_append, List.nil_append]
      rw [if_pos (isCont_eq_true _ (by omega) (by omega))]
      congr 2
      omega
    · by_cases h3 : v < 65536
      · refine ⟨224 + v / 4096, [128 + v / 64 % 64, 128 + v % 64],
          by simp [utf8EncodeScalar, h1, h2, h3], ?_⟩
        unfold utf8DecodeOne
        rw [if_neg (by omega), if_neg (by omega), if_neg (by omega), if_pos (by omega)]
        simp only [List.cons_append, List.nil_append]
        rw [if_pos (by
          rw [isCont_eq_true _ (by omega) (by omega), isCont_eq_true _ (by omega) (by omega)]
          rfl)]
        have hval : (224 + v / 4096 - 224) * 4096 + (128 + v / 64 % 64 - 128) * 64
            + (128 + v % 64 - 128) = v := by omega
        rw [if_pos (by
          rw [hval]
          exact ⟨by omega, hv.2⟩)]
        rw [hval]
      · have hub : v < 1114112 := hv.1
        refine ⟨240 + v / 262144, [128 + v / 4096 % 64, 128 + v / 64 % 64, 128 + v % 64],
          by simp [utf8EncodeScalar, h1, h2, h3], ?_⟩
        unfold utf8DecodeOne
        rw [if_neg (by omega), if_neg (by omega), if_neg (by omega), if_neg (by omega),
          if_pos (by omega)]
        simp only [List.cons_append, List.nil_append]
        rw [if_pos (by
          rw [isCont_eq_true _ (by omega) (by omega), isCont_eq_true _ (by omega) (by omega),
            isCont_eq_true _ (by omega) (by omega)]
          rfl)]
        have hval : (240 + v / 262144 - 240) * 262144 + (128 + v / 4096 % 64 - 128) * 4096
            + (128 + v / 64 % 64 - 128) * 64 + (128 + v % 64 - 128) = v := by omega
        rw [if_pos (by
          rw [hval]
          exact ⟨by omega, by omega⟩)]
        rw [hval]

/-- A successful decode pins down the canonical encoding of the scalar:
strict UTF-8 decoding is inverse to encoding byte-for-byte. -/
theorem utf8DecodeOne_canon (b : Nat) (bs : List Nat) (v : Nat) (rest : List Nat)
    (h : utf8DecodeOne b bs = some (v, rest)) :
    utf8EncodeScalar v ++ rest = b :: bs ∧ ValidScalar v := by
  unfold utf8DecodeOne at h
  split at h
  · rename_i hb
    cases h
    exact ⟨by simp [utf8EncodeScalar, hb], by omega, by omega⟩
  · split at h
    · exact absurd h (by simp)
    · split at h
      · rename_i hb1 hb2 hb3
        split at h
        · rename_i b1 bs2
          split at h
          · rename_i hcont
            cases h
            simp only [isCont, Bool.and_eq_true, decide_eq_true_eq] at hcont
            constructor
            · unfold utf8EncodeScalar
              rw [if_neg (by omega), if_pos (by omega)]
              simp only [List.cons_append, List.nil_append, List.cons.injEq]
              refine ⟨by omega, by omega, trivial⟩
            · exact ⟨by omega, by omega⟩
          · exact absurd h (by simp)
        · exact absurd h (by simp)
      · split at h
        · rename_i hb1 hb2 hb3 hb4
          split at h
          · rename_i b1 b2 bs2
            split at h
            · rename_i hcont
              simp only [isCont, Bool.and_eq_true, decide_eq_true_eq] at hcont
              split at h
              · rename_i hrange
                cases h
                constructor
                · unfold utf8EncodeScalar
                  rw [if_neg (by omega), if_neg (by omega), if_pos (by omega)]
                  simp only [List.cons_append, List.nil_append, List.cons.injEq]
                  refine ⟨by omega, by omega, by omega, trivial⟩
                · exact ⟨by omega, hrange.2⟩
              · exact absurd h (by simp)
            · exact absurd h (by simp)
          · exact absurd h (by simp)
        · split at h
          · rename_i hb1 hb2 hb3 hb4 hb5
            split at h
            · rename_i b1 b2 b3 bs2
              split at h
              · rename_i hcont
                simp only [isCont, Bool.and_eq_true, decide_eq_true_eq] at hcont
                split at h
                · rename_i hrange
                  cases h
                  constructor
                  · unfold utf8EncodeScalar
                    rw [if_neg (by omega), if_neg (by omega), if_neg (by omega)]
                    simp only [List.cons_append, List.nil_append, List.cons.injEq]
                    refine ⟨by omega, by omega, by omega, by omega, trivial⟩
                  · exact ⟨by omega, by omega⟩
                · exact absurd h (by simp)
              · exact absurd h (by simp)
            · exact absurd h (by simp)
          · exact absurd h (by simp)

theorem utf8DecodeScalarsAux_encode :
    ∀ fuel vs, (∀ v ∈ vs, ValidScalar v) →
      ((vs.map utf8EncodeScalar).flatten).length ≤ fuel →
      utf8DecodeScalarsAux fuel ((vs.map utf8EncodeScalar).flatten) = some vs := by
  intro fuel vs
  induction vs generalizing fuel with
  | nil =>
    intro _ _
    cases fuel <;> rfl
  | cons v vs ih =>
    intro hval hlen
    have hv : ValidScalar v := hval v (by simp)
    have hvs : ∀ u ∈ vs, ValidScalar u := fun u hu => hval u (by simp [hu])
    obtain ⟨b, br, henc, hdec⟩ := utf8DecodeOne_encodeScalar v hv ((vs.map utf8EncodeScalar).flatten)
    simp only [List.map_cons, List.flatten_cons, henc, List.cons_append] at hlen ⊢
    cases fuel with
    | zero => simp at hlen
    | succ f =>
      have hrest : ((vs.map utf8EncodeScalar).flatten).length ≤ f := by
        simp only [List.length_cons, List.length_append] at hlen
        omega
      simp only [utf8DecodeScalarsAux, hdec, ih f hvs hrest]

theorem utf8DecodeScalarsAux_canon :
    ∀ fuel bs vs, utf8DecodeScalarsAux fuel bs = some vs →
      (vs.map utf8EncodeScalar).flatten = bs ∧ ∀ v ∈ vs, ValidScalar v := by
  intro fuel
  induction fuel with
  | zero =>
    intro bs vs h
    cases bs with
    | nil =>
      cases h
      exact ⟨rfl, by simp⟩
    | cons b bs' => exact absurd h (by simp [utf8DecodeScalarsAux])
  | succ f ih =>
    intro bs vs h
    cases bs with
    | nil =>
      cases h
      exact ⟨rfl, by simp⟩
    | cons b bs' =>
      simp only [utf8DecodeScalarsAux] at h
      split at h
      · rename_i v rest hone
        split at h
        · rename_i vs' hvs'
          cases h
          obtain ⟨hflat, hvalid⟩ := ih rest vs' hvs'
          obtain ⟨henc, hv⟩ := utf8DecodeOne_canon b bs' v rest hone
          constructor
          · simp only [List.map_cons, List.flatten_cons, hflat, henc]
          · intro u hu
            simp only [List.mem_cons] at hu
            rcases hu with rfl | hu
            · exact hv
            · exact hvalid u hu
        · exact absurd h (by simp)
      · exact absurd h (by simp)

theorem validScalar_char_toNat (c : Char) : ValidScalar c.toNat := by
  have h : c.toNat.isValidChar := c.valid
  unfold Nat.isValidChar at h
  unfold ValidScalar
  omega

theorem char_toNat_ofNat (v : Nat) (hv : ValidScalar v) : (Char.ofNat v).toNat = v := by
  have hvalid : v.isValidChar := by
    unfold Nat.isValidChar
    unfold ValidScalar at hv
    omega
  unfold Char.ofNat
  rw [dif_pos hvalid]
  rfl

/-- Models `s.encode('utf-8').decode('utf-8') == s`. -/
theorem utf8Decode_utf8Encode (s : String) : utf8Decode (utf8Encode s) = some s := by
  have hval : ∀ v ∈ s.data.map Char.toNat, ValidScalar v := by
    intro v hv
    simp only [List.mem_map] at hv
    obtain ⟨c, _, rfl⟩ := hv
    exact validScalar_char_toNat c
  have henc : utf8Encode s = ((s.data.map Char.toNat).map utf8EncodeScalar).flatten := by
    unfold utf8Encode
    rw [List.map_map]
    rfl
  have hdec := utf8DecodeScalarsAux_encode
    (((s.data.map Char.toNat).map utf8EncodeScalar).flatten).length
    (s.data.map Char.toNat) hval (Nat.le_refl _)
  unfold utf8Decode utf8DecodeScalars
  rw [henc, hdec]
  have hid : ∀ l : List Char, (l.map Char.toNat).map Char.ofNat = l := by
    intro l
    induction l with
    | nil => rfl
    | cons c cs ihl => simp [ihl, Char.ofNat_toNat]
  show some (String.mk ((s.data.map Char.toNat).map Char.ofNat)) = some s
  rw [hid]

/-- A successful strict UTF-8 decode pins down the byte string: the model
of `bs.decode('utf-8') == s` implies `s.encode('utf-8') == bs`. -/
theorem utf8Encode_of_utf8Decode (bs : List Nat) (s : String) (h : utf8Decode bs = some s) :
    utf8Encode s = bs := by
  unfold utf8Decode at h
  split at h
  · rename_i vs hvs
    cases h
    obtain ⟨hflat, hval⟩ := utf8DecodeScalarsAux_canon _ _ _ hvs
    unfold utf8Encode
    have hdata : (String.mk (vs.map Char.ofNat)).data = vs.map Char.ofNat := rfl
    rw [hdata, List.map_map]
    have hcong : vs.map ((fun c => utf8EncodeScalar c.toNat) ∘ Char.ofNat)
        = vs.map utf8EncodeScalar := by
      apply List.map_congr_left
      intro v hv
      simp only [Function.comp_apply, char_toNat_ofNat v (hval v hv)]
    rw [hcong, hflat]
  · exact absurd h (by simp)

/-! ## Keys, errors, and the embedded program

`RSAKey` carries the arithmetic content of a pycryptodome `RsaKey`
(the CRT coefficient `u` is omitted: with a valid key the CRT/blinded
private operation computes exactly `pow(c, d, n)`, which is how
`_decrypt` is embedded).  `PyError` has one constructor per distinct
`raise` reachable from the embedded functions, labelled with the Python
exception it stands for. -/

/-- The arithmetic content of a pycryptodome `RsaKey`. -/
structure RSAKey where
  n : Nat
  e : Nat
  d : Nat
  p : Nat
  q : Nat
deriving DecidableEq, Repr

/-- The public half of a key, as returned by `RsaKey.publickey()`. -/
structure PublicRsaKey where
  n : Nat
  e : Nat
deriving DecidableEq, Repr

/-- `key.publickey()`. -/
def RSAKey.publickey (k : RSAKey) : PublicRsaKey := ⟨k.n, k.e⟩

/-- PEM-serialized private key (`key.export_key()`); the PEM codec is an
abstract bijection, so the serialized form carries the key data. -/
structure PemPrivateKey where
  key : RSAKey
deriving DecidableEq, Repr

/-- PEM-serialized public key (`key.publickey().export_key()`). -/
structure PemPublicKey where
  key : PublicRsaKey
deriving DecidableEq, Repr

/-- `RsaKey.export_key()` on a private key. -/
def RSAKey.export_key (k : RSAKey) : PemPrivateKey := ⟨k⟩

/-- `RsaKey.export_key()` on a public key. -/
def PublicRsaKey.export_key (k : PublicRsaKey) : PemPublicKey := ⟨k⟩

/-- `RSA.import_key` on a PEM private key. -/
def importPrivateKey (pem : PemPrivateKey) : RSAKey := pem.key

/-- `RSA.import_key` on a PEM public key. -/
def importPublicKey (pem : PemPublicKey) : PublicRsaKey := pem.key

/-- One constructor per distinct Python `raise` site reachable from the
embedded functions. -/
inductive PyError where
  /-- `ValueError("RSA modulus length must be >= 1024")` in `RSA.generate`. -/
  | modulusTooSmall
  /-- `ValueError("Plaintext is too long.")` in `PKCS1_OAEP.encrypt`. -/
  | plaintextTooLong
  /-- `ValueError("Plaintext too large")` in `RsaKey._encrypt`. -/
  | plaintextTooLargeInt
  /-- `ValueError("Ciphertext with incorrect length.")` in `PKCS1_OAEP.decrypt`. -/
  | ciphertextIncorrectLength
  /-- `ValueError("Ciphertext too large")` in `RsaKey._decrypt`. -/
  | ciphertextTooLargeInt
  /-- `ValueError` from `strxor` on inputs of different length (reachable
  in `PKCS1_OAEP.decrypt` when `k < 2*hLen + 1`). -/
  | strxorLengthMismatch
  /-- `ValueError("Incorrect decryption.")` in `PKCS1_OAEP.decrypt`. -/
  | incorrectDecryption
  /-- `binascii.Error` / `ValueError` from `base64.b64decode`. -/
  | base64DecodeFailed
  /-- `UnicodeDecodeError` from `bytes.decode('utf-8')`. -/
  | unicodeDecodeFailed
deriving DecidableEq, Repr

/-- The documented postcondition of `Crypto.PublicKey.RSA.generate(bits)`
(with its default public exponent 65537): `p`, `q` are distinct primes,
`n = p*q` has exactly the requested bit length, and `d` is the inverse of
`e` modulo `lcm(p-1, q-1)`. -/
structure GeneratedKey (k : RSAKey) (bits : Nat) : Prop where
  p_prime : k.p.Prime
  q_prime : k.q.Prime
  p_ne_q : k.p ≠ k.q
  n_eq : k.n = k.p * k.q
  n_lower : 2 ^ (bits - 1) ≤ k.n
  n_upper : k.n < 2 ^ bits
  e_eq : k.e = 65537
  d_pos : 0 < k.d
  ed_congr : k.e * k.d ≡ 1 [MOD Nat.lcm (k.p - 1) (k.q - 1)]

/-- `Crypto.PublicKey.RSA.generate(bits)`: rejects `bits < 1024`,
otherwise draws a fresh key from the system's entropy source (passed
here explicitly as `entropy`; `GeneratedKey` states the library's
postcondition on that draw). -/
def RSA_generate (entropy : RSAKey) (bits : Nat) : Except PyError RSAKey :=
  if bits < 1024 then .error .modulusTooSmall else .ok entropy

/-- `generate_rsa_keys(key_size=2048)` from `src/ceylon_bank_rsa.py`
(the `print` calls and timing are side-effect free on the result and are
not modelled): generates a key, exports the private and public halves,
and returns `(private_key, public_key, key)`. -/
def generate_rsa_keys (entropy : RSAKey) (key_size : Nat := 2048) :
    Except PyError (PemPrivateKey × PemPublicKey × RSAKey) := do
  let key ← RSA_generate entropy key_size
  let private_key := key.export_key
  let public_key := key.publickey.export_key
  return (private_key, public_key, key)

/-- `PKCS1_OAEP.new(rsa_key).encrypt(message)` for a public key, with the
`hLen = 20` random seed `ros = randfunc(hLen)` passed explicitly. -/
def PKCS1_OAEP_encrypt (rsa_key : PublicRsaKey) (message ros : List Nat) :
    Except PyError (List Nat) :=
  let modBits := bitLen rsa_key.n
  let k := (modBits + 7) / 8
  let hLen := 20
  let mLen := message.length
  if k < mLen + 2 * hLen + 2 then .error .plaintextTooLong
  else
    let lHash := sha1 []
    let ps := List.replicate (k - mLen - 2 * hLen - 2) 0
    let db := lHash ++ ps ++ [1] ++ message
    let dbMask := MGF1 ros (k - hLen - 1)
    let maskedDB := xorBytes db dbMask
    let seedMask := MGF1 maskedDB hLen
    let maskedSeed := xorBytes ros seedMask
    let em := 0 :: (maskedSeed ++ maskedDB)
    let em_int := bytesToNat em
    if rsa_key.n ≤ em_int then .error .plaintextTooLargeInt
    else .ok (longToBytes (powMod em_int rsa_key.e rsa_key.n) k)

/-- First index of byte `t` in the list: Python's `bytes.find` (with
`none` for `-1`). -/
def bytesFind (t : Nat) : List Nat → Option Nat
  | [] => none
  | b :: bs => if b = t then some 0 else (bytesFind t bs).map (· + 1)

/-- Step of `PKCS1_OAEP.decrypt`: the encoded message
`em = Integer(ct_int) ** d mod n, to_bytes(k)` (private-key operation
followed by `long_to_bytes` at block size `k`). -/
def oaepDecEM (rsa_key : RSAKey) (k : Nat) (ciphertext : List Nat) : List Nat :=
  longToBytes (powMod (bytesToNat ciphertext) rsa_key.d rsa_key.n) k

/-- Step of `PKCS1_OAEP.decrypt`: the recovered seed
`strxor(maskedSeed, MGF(maskedDB, hLen))` where
`maskedSeed = em[1:hLen+1]` and `maskedDB = em[hLen+1:]` (SHA-1,
`hLen = 20`). -/
def oaepDecSeed (em : List Nat) : List Nat :=
  xorBytes ((em.drop 1).take 20) (MGF1 (em.drop (20 + 1)) 20)

/-- Step of `PKCS1_OAEP.decrypt`: the recovered data block
`strxor(maskedDB, MGF(seed, k - hLen - 1))`. -/
def oaepDecDB (em : List Nat) (k : Nat) : List Nat :=
  xorBytes (em.drop (20 + 1)) (MGF1 (oaepDecSeed em) (k - 20 - 1))

/-- `PKCS1_OAEP.new(rsa_key).decrypt(ciphertext)` for a private key.  The
Python code accumulates all padding defects into one `invalid` flag and
raises a single `ValueError("Incorrect decryption.")`; the flag is the
disjunction tested in the final `if` below (when `find` returns `-1`,
`one_pos < hLen` makes the flag nonzero, hence the `none` arm).  The
explicit `strxorLengthMismatch` guard mirrors `strxor(db[:hLen], lHash)`
raising when `db` is shorter than `hLen`.  The masking pipeline is the
composition `oaepDecEM` / `oaepDecSeed` / `oaepDecDB` above. -/
def PKCS1_OAEP_decrypt (rsa_key : RSAKey) (ciphertext : List Nat) :
    Except PyError (List Nat) :=
  let modBits := bitLen rsa_key.n
  let k := (modBits + 7) / 8
  let hLen := 20
  if ciphertext.length ≠ k ∨ k < hLen + 2 then .error .ciphertextIncorrectLength
  else if rsa_key.n ≤ bytesToNat ciphertext then .error .ciphertextTooLargeInt
  else
    let em := oaepDecEM rsa_key k ciphertext
    let db := oaepDecDB em k
    if db.length < hLen then .error .strxorLengthMismatch
    else
      match bytesFind 1 (db.drop hLen) with
      | none => .error .incorrectDecryption
      | some i =>
        if em.headD 0 ≠ 0 ∨ db.take hLen ≠ sha1 [] ∨
            ¬ ((db.drop hLen).take i).all (fun x => x == 0) then
          .error .incorrectDecryption
        else .ok (db.drop (hLen + i + 1))

/-- `encrypt_message(message, public_key)` from `src/ceylon_bank_rsa.py`,
with the OAEP seed drawn by the cipher's random source passed explicitly:
imports the PEM public key, OAEP-encrypts the UTF-8 encoded message, and
returns the base64 ciphertext as text. -/
def encrypt_message (message : String) (public_key : PemPublicKey) (ros : List Nat) :
    Except PyError String := do
  let rsa_key := importPublicKey public_key
  let encrypted ← PKCS1_OAEP_encrypt rsa_key (utf8Encode message) ros
  return base64Encode encrypted

/-- `decrypt_message(encrypted_message, private_key)` from
`src/ceylon_bank_rsa.py`: imports the PEM private key, base64-decodes the
ciphertext, OAEP-decrypts it, and decodes the result as UTF-8. -/
def decrypt_message (encrypted_message : String) (private_key : PemPrivateKey) :
    Except PyError String := do
  let rsa_key := importPrivateKey private_key
  let encrypted_bytes ← match base64Decode encrypted_message with
    | some bs => Except.ok bs
    | none => Except.error PyError.base64DecodeFailed
  let decrypted ← PKCS1_OAEP_decrypt rsa_key encrypted_bytes
  match utf8Decode decrypted with
  | some s => return s
  | none => Except.error PyError.unicodeDecodeFailed

/-- The record stored in the `security_info` table of
`get_security_level`. -/
structure SecurityInfo where
  security_bits : Nat
  level : String
  nist_approval : String
  use_case : String
deriving DecidableEq, Repr

/-- `get_security_level(key_size)` from `src/ceylon_bank_rsa.py`: the
static three-entry dictionary and its `.get(key_size, {})` lookup, with
`none` standing for the empty-dictionary default. -/
def get_security_level (key_size : Nat) : Option SecurityInfo :=
  if key_size = 2048 then
    some ⟨112, "Standard Security", "Through 2030",
      "Routine operations and standard transactions"⟩
  else if key_size = 3072 then
    some ⟨128, "High Security", "Beyond 2030",
      "High-value transactions and long-term protection"⟩
  else if key_size = 4096 then
    some ⟨152, "Maximum Security", "Maximum recommended",
      "Critical infrastructure and executive communications"⟩
  else none

/-! ## RSA correctness -/

theorem publickey_n (k : RSAKey) : k.publickey.n = k.n := rfl

theorem publickey_e (k : RSAKey) : k.publickey.e = k.e := rfl

/-- Fermat/Euler step: if `P` is prime and `P - 1` divides `a - 1`
(with `a ≥ 1`), then `x ^ a ≡ x (mod P)` for every `x`. -/
theorem pow_congr_prime (P : Nat) (hP : P.Prime) (x a : Nat) (ha : 1 ≤ a)
    (hdvd : (P - 1) ∣ a - 1) : x ^ a ≡ x [MOD P] := by
  obtain ⟨t, ht⟩ := hdvd
  have ha' : a = (P - 1) * t + 1 := by
    have h1 := hP.two_le
    omega
  by_cases hx : P ∣ x
  · have h1 : x ^ a ≡ 0 [MOD P] := Nat.modEq_zero_iff_dvd.mpr (dvd_pow hx (by omega))
    have h2 : x ≡ 0 [MOD P] := Nat.modEq_zero_iff_dvd.mpr hx
    exact h1.trans h2.symm
  · have hco : Nat.Coprime x P := ((Nat.Prime.coprime_iff_not_dvd hP).mpr hx).symm
    have heuler : x ^ (P - 1) ≡ 1 [MOD P] := by
      have h := Nat.ModEq.pow_totient hco
      rwa [Nat.totient_prime hP] at h
    calc x ^ a = (x ^ (P - 1)) ^ t * x := by rw [ha', pow_add, pow_mul, pow_one]
      _ ≡ 1 ^ t * x [MOD P] := Nat.ModEq.mul (heuler.pow t) (Nat.ModEq.refl x)
      _ = x := by rw [one_pow, one_mul]

/-- RSA round trip on residues: for a generated key and exponents `a`, `b`
with `a * b ≡ 1 (mod lcm(p-1, q-1))`, `pow(pow(x, a, n), b, n) = x` for
every `x < n`.  Instantiated with `(e, d)` for decrypt-after-encrypt and
with `(d, e)` for encrypt-after-decrypt. -/
theorem rsa_pow_roundtrip (k : RSAKey) (bits : Nat) (hk : GeneratedKey k bits)
    (a b : Nat) (hab : a * b ≡ 1 [MOD Nat.lcm (k.p - 1) (k.q - 1)]) (hab1 : 1 ≤ a * b)
    (x : Nat) (hx : x < k.n) :
    powMod (powMod x a k.n) b k.n = x := by
  have hp := hk.p_prime
  have hq := hk.q_prime
  have hn : k.n = k.p * k.q := hk.n_eq
  simp only [powMod_spec]
  rw [← Nat.pow_mod, ← pow_mul]
  have hdvd : Nat.lcm (k.p - 1) (k.q - 1) ∣ a * b - 1 := (Nat.modEq_iff_dvd' hab1).mp hab.symm
  have hdp : (k.p - 1) ∣ a * b - 1 := (Nat.dvd_lcm_left _ _).trans hdvd
  have hdq : (k.q - 1) ∣ a * b - 1 := (Nat.dvd_lcm_right _ _).trans hdvd
  have hmp : x ^ (a * b) ≡ x [MOD k.p] := pow_congr_prime _ hp x (a * b) hab1 hdp
  have hmq : x ^ (a * b) ≡ x [MOD k.q] := pow_congr_prime _ hq x (a * b) hab1 hdq
  have hco : Nat.Coprime k.p k.q := (Nat.coprime_primes hp hq).mpr hk.p_ne_q
  have hmn : x ^ (a * b) ≡ x [MOD k.p * k.q] :=
    (Nat.modEq_and_modEq_iff_modEq_mul hco).mp ⟨hmp, hmq⟩
  rw [hn] at hx ⊢
  unfold Nat.ModEq at hmn
  rw [hmn, Nat.mod_eq_of_lt hx]

theorem bytesToNat_cons_zero (l : List Nat) : bytesToNat (0 :: l) = bytesToNat l := rfl

theorem bytesFind_replicate_zero (m : Nat) (rest : List Nat) :
    bytesFind 1 (List.replicate m 0 ++ 1 :: rest) = some m := by
  induction m with
  | zero => simp [bytesFind]
  | succ m ih =>
    rw [List.replicate_succ, List.cons_append]
    show (if (0 : Nat) = 1 then some 0 else (bytesFind 1 _).map (· + 1)) = some (m + 1)
    rw [if_neg (by omega), ih]
    rfl

theorem all_zero_replicate (m : Nat) :
    (List.replicate m 0).all (fun x : Nat => x == 0) = true := by
  simp [List.all_eq_true]

/-- OAEP round trip at the cipher layer: encryption of a message within
capacity succeeds, and decryption with the same key recovers it. -/
theorem oaep_roundtrip (k : RSAKey) (bits : Nat) (hk : GeneratedKey k bits)
    (msg ros : List Nat) (hmsg : IsBytes msg) (hroslen : ros.length = 20)
    (hros : IsBytes ros) (hcap : msg.length + 42 ≤ (bits + 7) / 8) :
    ∃ ct, PKCS1_OAEP_encrypt k.publickey msg ros = .ok ct ∧
      ct.length = (bits + 7) / 8 ∧ IsBytes ct ∧
      PKCS1_OAEP_decrypt k ct = .ok msg := by
  have hnlow := hk.n_lower
  have hnhigh := hk.n_upper
  have hbits : 329 ≤ bits := by omega
  have hnpos : 0 < k.n := lt_of_lt_of_le (Nat.pos_pow_of_pos _ (by omega)) hnlow
  have hmod : bitLen k.n = bits := bitLen_eq_of_bounds _ _ (by omega) hnlow hnhigh
  have hn256K : k.n < 256 ^ ((bits + 7) / 8) := by
    calc k.n < 2 ^ bits := hnhigh
      _ ≤ 2 ^ (8 * ((bits + 7) / 8)) := Nat.pow_le_pow_right (by omega) (by omega)
      _ = 256 ^ ((bits + 7) / 8) := by
        rw [pow_mul]
        norm_num
  simp only [PKCS1_OAEP_encrypt, publickey_n, publickey_e, hmod]
  set K := (bits + 7) / 8 with hKdef
  set DB := sha1 [] ++ List.replicate (K - msg.length - 2 * 20 - 2) 0 ++ [1] ++ msg with hDBdef
  set DBM := MGF1 ros (K - 20 - 1) with hDBMdef
  set MDB := xorBytes DB DBM with hMDBdef
  set SM := MGF1 MDB 20 with hSMdef
  set MS := xorBytes ros SM with hMSdef
  have hps_len : (List.replicate (K - msg.length - 2 * 20 - 2) (0 : Nat)).length
      = K - msg.length - 42 := by
    rw [List.length_replicate]
    omega
  have hDB_len : DB.length = K - 21 := by
    rw [hDBdef]
    simp only [List.length_append, List.length_replicate, List.length_cons,
      List.length_nil, length_sha1]
    omega
  have hDB_bytes : IsBytes DB := by
    rw [hDBdef]
    intro b hb
    simp only [List.mem_append, List.mem_replicate, List.mem_cons, List.not_mem_nil,
      or_false] at hb
    rcases hb with ((hb | hb) | hb) | hb
    · exact isBytes_sha1 [] b hb
    · omega
    · omega
    · exact hmsg b hb
  have hDBM_len : DBM.length = K - 21 := by
    rw [hDBMdef, length_MGF1]
    omega
  have hMDB_len : MDB.length = K - 21 := by
    rw [hMDBdef, length_xorBytes]
    omega
  have hMDB_bytes : IsBytes MDB :=
    isBytes_xorBytes _ _ hDB_bytes (isBytes_MGF1 _ _)
  have hSM_len : SM.length = 20 := length_MGF1 _ _
  have hMS_len : MS.length = 20 := by
    rw [hMSdef, length_xorBytes]
    omega
  have hMS_bytes : IsBytes MS := isBytes_xorBytes _ _ hros (isBytes_MGF1 _ _)
  have hEM_len : ((0 : Nat) :: (MS ++ MDB)).length = K := by
    simp only [List.length_cons, List.length_append]
    omega
  have hEM_bytes : IsBytes ((0 : Nat) :: (MS ++ MDB)) := by
    intro b hb
    simp only [List.mem_cons, List.mem_append] at hb
    rcases hb with rfl | hb | hb
    · omega
    · exact hMS_bytes b hb
    · exact hMDB_bytes b hb
  have hEMI_lt : bytesToNat ((0 : Nat) :: (MS ++ MDB)) < k.n := by
    rw [bytesToNat_cons_zero]
    have h1 : bytesToNat (MS ++ MDB) < 256 ^ (MS ++ MDB).length :=
      bytesToNat_lt _ (fun b hb => by
        simp only [List.mem_append] at hb
        rcases hb with hb | hb
        · exact hMS_bytes b hb
        · exact hMDB_bytes b hb)
    have h2 : (MS ++ MDB).length = K - 1 := by
      rw [List.length_append]
      omega
    calc bytesToNat (MS ++ MDB) < 256 ^ (K - 1) := by rw [← h2]; exact h1
      _ = 2 ^ (8 * (K - 1)) := by rw [pow_mul]; norm_num
      _ ≤ 2 ^ (bits - 1) := Nat.pow_le_pow_right (by omega) (by omega)
      _ ≤ k.n := hnlow
  rw [if_neg (by omega), if_neg (by omega)]
  set EMI := bytesToNat ((0 : Nat) :: (MS ++ MDB)) with hEMIdef
  set C := powMod EMI k.e k.n with hCdef
  have hC_lt_n : C < k.n := powMod_lt _ _ _ hnpos
  have hC_lt : C < 256 ^ K := lt_trans hC_lt_n hn256K
  have hct_eq : longToBytes C K = natToBytes K C := longToBytes_eq C K (by omega) hC_lt
  refine ⟨longToBytes C K, rfl, ?_, ?_, ?_⟩
  · rw [hct_eq, length_natToBytes]
  · rw [hct_eq]
    exact isBytes_natToBytes K C
  -- decryption
  rw [hct_eq]
  simp only [PKCS1_OAEP_decrypt, hmod]
  rw [if_neg (by rw [length_natToBytes]; omega)]
  have hct_int : bytesToNat (natToBytes K C) = C := bytesToNat_natToBytes K C hC_lt
  simp only [hct_int]
  rw [if_neg (by omega)]
  have hEMI1 : 1 ≤ k.e * k.d := by
    have h1 := hk.d_pos
    have h2 := hk.e_eq
    have : 0 < k.e * k.d := Nat.mul_pos (by omega) h1
    omega
  have hm_int : powMod C k.d k.n = EMI := by
    rw [hCdef]
    exact rsa_pow_roundtrip k bits hk k.e k.d hk.ed_congr hEMI1 EMI hEMI_lt
  have hEMI_lt256 : EMI < 256 ^ K := lt_trans hEMI_lt hn256K
  have hem_rt : natToBytes K EMI = (0 : Nat) :: (MS ++ MDB) := by
    rw [hEMIdef, ← hEM_len]
    exact natToBytes_bytesToNat _ hEM_bytes
  have hem_eq : oaepDecEM k K (natToBytes K C) = (0 : Nat) :: (MS ++ MDB) := by
    unfold oaepDecEM
    rw [hct_int, hm_int, longToBytes_eq EMI K (by omega) hEMI_lt256, hem_rt]
  have hdrop1 : ((0 : Nat) :: (MS ++ MDB)).drop 1 = MS ++ MDB := rfl
  have htake20 : (MS ++ MDB).take 20 = MS := List.take_left' hMS_len
  have hdrop21 : ((0 : Nat) :: (MS ++ MDB)).drop (20 + 1) = MDB := by
    rw [List.drop_succ_cons]
    exact List.drop_left' hMS_len
  have hheadD : ((0 : Nat) :: (MS ++ MDB)).headD 0 = 0 := rfl
  have hseed_eq : oaepDecSeed ((0 : Nat) :: (MS ++ MDB)) = ros := by
    unfold oaepDecSeed
    rw [hdrop1, htake20, hdrop21, ← hSMdef, hMSdef]
    exact xorBytes_cancel ros SM (by omega)
  have hdb_eq : oaepDecDB ((0 : Nat) :: (MS ++ MDB)) K = DB := by
    unfold oaepDecDB
    rw [hseed_eq, hdrop21, ← hDBMdef, hMDBdef]
    exact xorBytes_cancel DB DBM (by omega)
  rw [← hKdef, hem_eq, hdb_eq, hheadD]
  rw [if_neg (by omega)]
  have hDB_split : DB = sha1 [] ++ (List.replicate (K - msg.length - 2 * 20 - 2) 0
      ++ (1 :: msg)) := by
    rw [hDBdef]
    simp only [List.append_assoc, List.singleton_append]
  have hdrop20 : DB.drop 20 = List.replicate (K - msg.length - 2 * 20 - 2) 0 ++ (1 :: msg) := by
    rw [hDB_split]
    exact List.drop_left' (length_sha1 [])
  have htakeDB : DB.take 20 = sha1 [] := by
    rw [hDB_split]
    exact List.take_left' (length_sha1 [])
  rw [hdrop20, bytesFind_replicate_zero]
  have htakeps : (List.replicate (K - msg.length - 2 * 20 - 2) (0 : Nat)
      ++ (1 :: msg)).take (K - msg.length - 2 * 20 - 2)
      = List.replicate (K - msg.length - 2 * 20 - 2) 0 :=
    List.take_left' (List.length_replicate _ _)
  split
  · rename_i heq
    exact absurd heq (by simp)
  · rename_i i heq
    injection heq with heq
    subst heq
    rw [if_neg (by
      push_neg
      refine ⟨rfl, htakeDB, ?_⟩
      rw [htakeps]
      simp only [all_zero_replicate, not_true_eq_false, not_false_eq_true])]
    congr 1
    have hassoc : 20 + (K - msg.length - 2 * 20 - 2) + 1
        = 20 + ((K - msg.length - 2 * 20 - 2) + 1) := by omega
    rw [hassoc, ← List.drop_drop, hdrop20]
    have hsplit2 : List.replicate (K - msg.length - 2 * 20 - 2) (0 : Nat) ++ (1 :: msg)
        = (List.replicate (K - msg.length - 2 * 20 - 2) 0 ++ [1]) ++ msg := by
      simp [List.append_assoc]
    rw [hsplit2]
    apply List.drop_left'
    simp only [List.length_append, List.length_replicate, List.length_cons, List.length_nil]

/-! ## Primality certificates for concrete keys

The witness keys below are honest RSA keys: their factors are Proth-form
primes `kk * 2^m + 1` with `kk` prime, certified in the kernel through
`lucas_primality` with the two prime divisors `2` and `kk` of `p - 1`,
the modular powers being computed by `powMod`. -/

theorem zmod_pow_natCast (n g m : Nat) :
    ((g : Nat) : ZMod n) ^ m = ((powMod g m n : Nat) : ZMod n) := by
  rw [powMod_spec, ZMod.natCast_mod, Nat.cast_pow]

theorem zmod_natCast_ne_one (n r : Nat) (h1 : 1 < n) (hr : r < n) (hne : r ≠ 1) :
    ((r : Nat) : ZMod n) ≠ 1 := by
  haveI : NeZero n := ⟨by omega⟩
  intro h
  have hval := congrArg ZMod.val h
  rw [ZMod.val_natCast_of_lt hr] at hval
  haveI : Fact (1 < n) := ⟨h1⟩
  rw [ZMod.val_one] at hval
  exact hne hval

/-- Lucas primality certificate for `p` with `p - 1 = kk * 2 ^ m`,
`kk` prime: a base `g` of full order modulo `p` proves `p` prime. -/
theorem lucas_two_factor (p kk m g : Nat) (hp1 : 1 < p) (hk : Nat.Prime kk)
    (hfac : p - 1 = kk * 2 ^ m)
    (h1 : powMod g (p - 1) p = 1)
    (h2 : powMod g ((p - 1) / 2) p ≠ 1)
    (h3 : powMod g ((p - 1) / kk) p ≠ 1) : p.Prime := by
  have hp0 : 0 < p := by omega
  apply lucas_primality p ((g : Nat) : ZMod p)
  · rw [zmod_pow_natCast, h1, Nat.cast_one]
  · intro q hq hdvd
    rw [zmod_pow_natCast]
    apply zmod_natCast_ne_one p _ hp1 (powMod_lt _ _ _ hp0)
    rw [hfac] at hdvd
    rcases (Nat.Prime.dvd_mul hq).mp hdvd with hqk | hq2
    · rw [(Nat.prime_dvd_prime_iff_eq hq hk).mp hqk]
      exact h3
    · rw [(Nat.prime_dvd_prime_iff_eq hq Nat.prime_two).mp (hq.dvd_of_dvd_pow hq2)]
      exact h2

/-- Witness prime `14293 * 2 ^ 1010 + 1` (1024 bits). -/
def WP1 : Nat := 156826342630536384699554193676437564194346587890761644556221688842008858354982010867663712546946466818229357158508412186341374643900418504961564228889770731184780059858496239078014381394080226028402277504525817105346904767011768918756508794492190167283677297925707517135227416149822423409729720948444765356033

/-- Witness prime `15607 * 2 ^ 1010 + 1` (1024 bits). -/
def WP2 : Nat := 171243876683326198559150794144557550156102091737991813236476030067671745074246431372813794285328028239845069416696340096007124751091711439651237173461320352732166962443962135541213912433877428645160172462963298647110413677936939586862998163831218914209497767349507956337332560263784969016697107314236161261569

/-- Witness prime `43063 * 2 ^ 496 + 1` (512 bits). -/
def WP3 : Nat := 8810126234239472334273624244655431393244078526797031189344936011520238104660906272308641249114400669961789579911569958616870169914716417565967898973831169

/-- Witness prime `50773 * 2 ^ 496 + 1` (512 bits). -/
def WP4 : Nat := 10387491333419425697886230029814230734718472912734033034777197039521562577803408823443017024853945735688873100825537967834436735412764941343540583205961729

/-- `65537⁻¹ mod lcm(WP1 - 1, WP2 - 1)`. -/
def WD2048 : Nat := 2107621989973945268242967297834267078250252370529810275434653880983744219737029316019631503091648998423947482218778660695294237694081909957821952350935062205647848823640610007063186487005143977982585903939320205152795500542615752977453390965893554179576442399838141397828723933271382888699391963818525858333655041

/-- `65537⁻¹ mod lcm(WP3 - 1, WP4 - 1)`. -/
def WD1024 : Nat := 131259355281840857166069624988871672259064213057642763560626749727444157878092248988609079680471501313278269697375361572192471249144506047622223106282870472705

theorem WP1_prime : Nat.Prime WP1 :=
  lucas_two_factor WP1 14293 1010 3 (by decide) (by norm_num) (by decide)
    (by decide) (by decide) (by decide)

theorem WP2_prime : Nat.Prime WP2 :=
  lucas_two_factor WP2 15607 1010 3 (by decide) (by norm_num) (by decide)
    (by decide) (by decide) (by decide)

theorem WP3_prime : Nat.Prime WP3 :=
  lucas_two_factor WP3 43063 496 3 (by decide) (by norm_num) (by decide)
    (by decide) (by decide) (by decide)

theorem WP4_prime : Nat.Prime WP4 :=
  lucas_two_factor WP4 50773 496 3 (by decide) (by norm_num) (by decide)
    (by decide) (by decide) (by decide)

/-- A concrete honest 2048-bit RSA key (a possible output of
`RSA.generate(2048)`). -/
def KEY2048 : RSAKey := ⟨WP1 * WP2, 65537, WD2048, WP1, WP2⟩

/-- A concrete honest 1024-bit RSA key (a possible output of
`RSA.generate(1024)`). -/
def KEY1024 : RSAKey := ⟨WP3 * WP4, 65537, WD1024, WP3, WP4⟩

theorem KEY2048_generated : GeneratedKey KEY2048 2048 :=
  ⟨WP1_prime, WP2_prime, by decide, rfl, by decide, by decide, rfl, by decide, by decide⟩

theorem KEY1024_generated : GeneratedKey KEY1024 1024 :=
  ⟨WP3_prime, WP4_prime, by decide, rfl, by decide, by decide, rfl, by decide, by decide⟩

/-! ## Support lemmas for the claims -/

theorem isBytes_utf8EncodeScalar (v : Nat) (hv : ValidScalar v) :
    IsBytes (utf8EncodeScalar v) := by
  have hub : v < 1114112 := hv.1
  intro b hb
  unfold utf8EncodeScalar at hb
  split at hb
  · simp only [List.mem_singleton] at hb
    omega
  · split at hb
    · simp only [List.mem_cons, List.not_mem_nil, or_false] at hb
      rcases hb with rfl | rfl <;> omega
    · split at hb
      · simp only [List.mem_cons, List.not_mem_nil, or_false] at hb
        rcases hb with rfl | rfl | rfl <;> omega
      · simp only [List.mem_cons, List.not_mem_nil, or_false] at hb
        rcases hb with rfl | rfl | rfl | rfl <;> omega

theorem isBytes_utf8Encode (s : String) : IsBytes (utf8Encode s) := by
  intro b hb
  unfold utf8Encode at hb
  simp only [List.mem_flatten, List.mem_map] at hb
  obtain ⟨l, ⟨c, _, rfl⟩, hbl⟩ := hb
  exact isBytes_utf8EncodeScalar c.toNat (validScalar_char_toNat c) b hbl

theorem isBytes_longToBytes (x k : Nat) : IsBytes (longToBytes x k) := by
  unfold longToBytes
  exact isBytes_natToBytes _ _

/-- What a successful `bytes.find` guarantees: the element at the found
index is the target and everything before it is not. -/
theorem bytesFind_spec (t : Nat) :
    ∀ l i, bytesFind t l = some i →
      i < l.length ∧ l = l.take i ++ t :: l.drop (i + 1) ∧ ∀ x ∈ l.take i, x ≠ t := by
  intro l
  induction l with
  | nil => intro i h; simp [bytesFind] at h
  | cons b bs ih =>
    intro i h
    simp only [bytesFind] at h
    by_cases hb : b = t
    · rw [if_pos hb] at h
      cases h
      subst hb
      refine ⟨by simp, by simp, by simp⟩
    · rw [if_neg hb] at h
      rcases hfind : bytesFind t bs with _ | j
      · rw [hfind] at h
        exact Option.noConfusion h
      · rw [hfind] at h
        simp only [Option.map_some'] at h
        cases h
        obtain ⟨hlt, heq, hall⟩ := ih j hfind
        refine ⟨by simp only [List.length_cons]; omega, ?_, ?_⟩
        · show b :: bs = (b :: bs).take (j + 1) ++ t :: (b :: bs).drop (j + 1 + 1)
          rw [List.take_succ_cons, List.drop_succ_cons, List.cons_append]
          exact congrArg (b :: ·) heq
        · intro x hx
          rw [List.take_succ_cons] at hx
          simp only [List.mem_cons] at hx
          rcases hx with rfl | hx
          · exact hb
          · exact hall x hx

/-- A list whose entries all pass `x == 0` and whose length is `m` is
`replicate m 0`. -/
theorem eq_replicate_of_all_zero (l : List Nat) (hall : l.all (fun x => x == 0) = true) :
    l = List.replicate l.length 0 := by
  induction l with
  | nil => rfl
  | cons b bs ih =>
    simp only [List.all_cons, Bool.and_eq_true, beq_iff_eq] at hall
    obtain ⟨rfl, hrest⟩ := hall
    simp only [List.length_cons, List.replicate_succ]
    exact congrArg (0 :: ·) (ih hrest)

/-- C1: For every supported modulus size (2048, 3072 or 4096) and every
plaintext string whose UTF-8 encoding is within the OAEP capacity for
that modulus, decrypting the result of encrypting the plaintext with the
pair's public key, using the pair's private key, returns a plaintext
equal to the original: `decrypt_message (encrypt_message m pub) priv = m`
for the keys returned by `generate_rsa_keys`. -/
theorem C1_round_trip (entropy : RSAKey) (size : Nat)
    (hsize : size = 2048 ∨ size = 3072 ∨ size = 4096)
    (hgen : GeneratedKey entropy size)
    (m : String) (hm : (utf8Encode m).length + 42 ≤ (size + 7) / 8)
    (ros : List Nat) (hros_len : ros.length = 20) (hros : IsBytes ros) :
    ∃ private_key public_key key ct,
      generate_rsa_keys entropy size = .ok (private_key, public_key, key) ∧
      encrypt_message m public_key ros = .ok ct ∧
      decrypt_message ct private_key = .ok m := by
  have hge : ¬ (size < 1024) := by rcases hsize with rfl | rfl | rfl <;> omega
  obtain ⟨ct, henc, hctlen, hctbytes, hdec⟩ :=
    oaep_roundtrip entropy size hgen (utf8Encode m) ros (isBytes_utf8Encode m) hros_len hros hm
  refine ⟨entropy.export_key, entropy.publickey.export_key, entropy, base64Encode ct, ?_, ?_, ?_⟩
  · unfold generate_rsa_keys RSA_generate
    rw [if_neg hge]
    rfl
  · simp only [encrypt_message]
    have himp : importPublicKey entropy.publickey.export_key = entropy.publickey := rfl
    rw [himp, henc]
    rfl
  · unfold decrypt_message
    have himp : importPrivateKey entropy.export_key = entropy := rfl
    rw [himp, base64Decode_base64Encode ct hctbytes]
    show (do
      let decrypted ← PKCS1_OAEP_decrypt entropy ct
      match utf8Decode decrypted with
      | some s => pure s
      | none => Except.error PyError.unicodeDecodeFailed) = Except.ok m
    rw [hdec]
    show (match utf8Decode (utf8Encode m) with
      | some s => pure s
      | none => Except.error PyError.unicodeDecodeFailed) = Except.ok m
    rw [utf8Decode_utf8Encode]
    rfl

/-- Witness for C1 at the 2048-bit certified key, the sample transaction
message, and a concrete seed. -/
theorem C1_round_trip_witness :
    ∃ private_key public_key key ct,
      generate_rsa_keys KEY2048 2048 = .ok (private_key, public_key, key) ∧
      encrypt_message "Ceylon Bank Confidential Transaction: Transfer $50,000 to Account #12345678"
        public_key (List.range 20) = .ok ct ∧
      decrypt_message ct private_key
        = .ok "Ceylon Bank Confidential Transaction: Transfer $50,000 to Account #12345678" :=
  C1_round_trip KEY2048 2048 (Or.inl rfl) KEY2048_generated
    "Ceylon Bank Confidential Transaction: Transfer $50,000 to Account #12345678"
    (by decide) (List.range 20) (by decide) (by decide)

/-- C2 counterexample: the claim says `generate_rsa_keys 1024` signals an
unsupported-key-size error, but the code performs no size validation of
its own: a 1024-bit generation succeeds and returns a key pair (here at a
concrete honest 1024-bit key draw). -/
theorem C2_counterexample :
    GeneratedKey KEY1024 1024 ∧
    generate_rsa_keys KEY1024 1024
      = .ok (KEY1024.export_key, KEY1024.publickey.export_key, KEY1024) :=
  ⟨KEY1024_generated, rfl⟩

/-- C2 (amended): `generate_rsa_keys` performs no size validation itself;
the underlying `RSA.generate` raises `ValueError` only for sizes below
1024, and every size `≥ 1024` (1024 itself included) returns a key pair.
-/
theorem C2_amended_no_size_validation (entropy : RSAKey) (key_size : Nat) :
    (key_size < 1024 → generate_rsa_keys entropy key_size = .error .modulusTooSmall) ∧
    (1024 ≤ key_size → generate_rsa_keys entropy key_size
        = .ok (entropy.export_key, entropy.publickey.export_key, entropy)) := by
  constructor
  · intro h
    unfold generate_rsa_keys RSA_generate
    rw [if_pos h]
    rfl
  · intro h
    unfold generate_rsa_keys RSA_generate
    rw [if_neg (by omega)]
    rfl

/-- Witness for the amended C2 at sizes 1000 and 1024. -/
theorem C2_amended_witness :
    generate_rsa_keys KEY1024 1000 = .error .modulusTooSmall ∧
    generate_rsa_keys KEY1024 1024
      = .ok (KEY1024.export_key, KEY1024.publickey.export_key, KEY1024) :=
  ⟨(C2_amended_no_size_validation KEY1024 1000).1 (by decide),
   (C2_amended_no_size_validation KEY1024 1024).2 (by decide)⟩

/-- C5: for each requested size in {2048, 3072, 4096}, `generate_rsa_keys`
returns a key whose modulus bit length exactly equals the requested size
(the library contract `GeneratedKey` gives the bounds; the glue code
passes the key through unchanged). -/
theorem C5_modulus_bitlength (entropy : RSAKey) (size : Nat)
    (hsize : size = 2048 ∨ size = 3072 ∨ size = 4096)
    (hgen : GeneratedKey entropy size) :
    ∃ private_key public_key key,
      generate_rsa_keys entropy size = .ok (private_key, public_key, key) ∧
      bitLen key.n = size := by
  have hge : ¬ (size < 1024) := by rcases hsize with rfl | rfl | rfl <;> omega
  refine ⟨entropy.export_key, entropy.publickey.export_key, entropy, ?_, ?_⟩
  · unfold generate_rsa_keys RSA_generate
    rw [if_neg hge]
    rfl
  · exact bitLen_eq_of_bounds _ _ (by rcases hsize with rfl | rfl | rfl <;> omega)
      hgen.n_lower hgen.n_upper

/-- Witness for C5 at the 2048-bit certified key. -/
theorem C5_modulus_bitlength_witness :
    ∃ private_key public_key key,
      generate_rsa_keys KEY2048 2048 = .ok (private_key, public_key, key) ∧
      bitLen key.n = 2048 :=
  C5_modulus_bitlength KEY2048 2048 (Or.inl rfl) KEY2048_generated

/-- C6: every key pair returned by `generate_rsa_keys` carries the
standard public exponent 65537 (`RSA.generate`'s default), both in the
key object and in the exported public key. -/
theorem C6_public_exponent (entropy : RSAKey) (size : Nat)
    (hsize : 1024 ≤ size) (hgen : GeneratedKey entropy size) :
    ∃ private_key public_key key,
      generate_rsa_keys entropy size = .ok (private_key, public_key, key) ∧
      key.e = 65537 ∧ (importPublicKey public_key).e = 65537 := by
  refine ⟨entropy.export_key, entropy.publickey.export_key, entropy, ?_, hgen.e_eq, hgen.e_eq⟩
  unfold generate_rsa_keys RSA_generate
  rw [if_neg (by omega)]
  rfl

/-- Witness for C6 at the 2048-bit certified key. -/
theorem C6_public_exponent_witness :
    ∃ private_key public_key key,
      generate_rsa_keys KEY2048 2048 = .ok (private_key, public_key, key) ∧
      key.e = 65537 ∧ (importPublicKey public_key).e = 65537 :=
  C6_public_exponent KEY2048 2048 (by omega) KEY2048_generated

/-- C9: called without a size argument, `generate_rsa_keys` defaults to a
2048-bit key, so the returned key's modulus bit length is 2048. -/
theorem C9_default_size (entropy : RSAKey) (hgen : GeneratedKey entropy 2048) :
    ∃ private_key public_key key,
      generate_rsa_keys entropy = .ok (private_key, public_key, key) ∧
      bitLen key.n = 2048 := by
  refine ⟨entropy.export_key, entropy.publickey.export_key, entropy, ?_, ?_⟩
  · unfold generate_rsa_keys RSA_generate
    rw [if_neg (by omega)]
    rfl
  · exact bitLen_eq_of_bounds _ _ (by omega) hgen.n_lower hgen.n_upper

/-- Witness for C9 at the 2048-bit certified key. -/
theorem C9_default_size_witness :
    ∃ private_key public_key key,
      generate_rsa_keys KEY2048 = .ok (private_key, public_key, key) ∧
      bitLen key.n = 2048 :=
  C9_default_size KEY2048 KEY2048_generated

/-- C7: `get_security_level 2048` returns a record whose security
strength is 112 bits, and lookup of any size outside
{2048, 3072, 4096} returns the empty/`NotFound` result. -/
theorem C7_policy_lookup :
    (∃ t, get_security_level 2048 = some t ∧ t.security_bits = 112) ∧
    (∀ s, s ≠ 2048 → s ≠ 3072 → s ≠ 4096 → get_security_level s = none) := by
  constructor
  · exact ⟨_, rfl, rfl⟩
  · intro s h1 h2 h3
    unfold get_security_level
    rw [if_neg h1, if_neg h2, if_neg h3]

/-- Witness for C7's unlisted-size clause at 1234. -/
theorem C7_policy_lookup_witness : get_security_level 1234 = none :=
  C7_policy_lookup.2 1234 (by decide) (by decide) (by decide)

/-- C10: the full static table beyond the 2048 entry: 3072 maps to 128
security bits with level "High Security" and 4096 maps to 152 security
bits with level "Maximum Security" (the lookup is a pure function of its
argument in this embedding: the table is immutable). -/
theorem C10_table_contents :
    (get_security_level 3072 = some ⟨128, "High Security", "Beyond 2030",
      "High-value transactions and long-term protection"⟩ ∧
      (get_security_level 3072).map SecurityInfo.security_bits = some 128) ∧
    (get_security_level 4096 = some ⟨152, "Maximum Security", "Maximum recommended",
      "Critical infrastructure and executive communications"⟩ ∧
      (get_security_level 4096).map SecurityInfo.security_bits = some 152) :=
  ⟨⟨rfl, rfl⟩, ⟨rfl, rfl⟩⟩

/-- The OAEP data block `lHash ‖ PS ‖ 0x01 ‖ M` for modulus byte length
`K` (names the value computed inside `PKCS1_OAEP_encrypt`). -/
def oaepDB (K : Nat) (msg : List Nat) : List Nat :=
  sha1 [] ++ List.replicate (K - msg.length - 2 * 20 - 2) 0 ++ [1] ++ msg

/-- The masked data block computed inside `PKCS1_OAEP_encrypt`. -/
def oaepMDB (K : Nat) (msg ros : List Nat) : List Nat :=
  xorBytes (oaepDB K msg) (MGF1 ros (K - 20 - 1))

/-- The encoded message `0x00 ‖ maskedSeed ‖ maskedDB` computed inside
`PKCS1_OAEP_encrypt`. -/
def oaepEM (K : Nat) (msg ros : List Nat) : List Nat :=
  0 :: (xorBytes ros (MGF1 (oaepMDB K msg ros) 20) ++ oaepMDB K msg ros)

theorem oaepDB_length (K : Nat) (msg : List Nat) (hcap : msg.length + 42 ≤ K) :
    (oaepDB K msg).length = K - 21 := by
  unfold oaepDB
  simp only [List.length_append, List.length_replicate, List.length_cons, List.length_nil,
    length_sha1]
  omega

theorem oaepDB_bytes (K : Nat) (msg : List Nat) (hmsg : IsBytes msg) :
    IsBytes (oaepDB K msg) := by
  unfold oaepDB
  intro b hb
  simp only [List.mem_append, List.mem_replicate, List.mem_cons, List.not_mem_nil,
    or_false] at hb
  rcases hb with ((hb | hb) | hb) | hb
  · exact isBytes_sha1 [] b hb
  · omega
  · omega
  · exact hmsg b hb

theorem oaepMDB_length (K : Nat) (msg ros : List Nat) (hcap : msg.length + 42 ≤ K) :
    (oaepMDB K msg ros).length = K - 21 := by
  unfold oaepMDB
  rw [length_xorBytes, oaepDB_length K msg hcap, length_MGF1]
  omega

theorem oaepMDB_bytes (K : Nat) (msg ros : List Nat) (hmsg : IsBytes msg) :
    IsBytes (oaepMDB K msg ros) :=
  isBytes_xorBytes _ _ (oaepDB_bytes K msg hmsg) (isBytes_MGF1 _ _)

theorem oaepEM_length (K : Nat) (msg ros : List Nat) (hcap : msg.length + 42 ≤ K)
    (hroslen : ros.length = 20) : (oaepEM K msg ros).length = K := by
  unfold oaepEM
  simp only [List.length_cons, List.length_append, length_xorBytes, length_MGF1,
    oaepMDB_length K msg ros hcap]
  omega

theorem oaepEM_bytes (K : Nat) (msg ros : List Nat) (hmsg : IsBytes msg) (hros : IsBytes ros) :
    IsBytes (oaepEM K msg ros) := by
  unfold oaepEM
  intro b hb
  simp only [List.mem_cons, List.mem_append] at hb
  rcases hb with rfl | hb | hb
  · omega
  · exact isBytes_xorBytes _ _ hros (isBytes_MGF1 _ _) b hb
  · exact oaepMDB_bytes K msg ros hmsg b hb

/-- Canonical form of a successful OAEP encryption over a bare public
key: within capacity, the result is the `K`-byte encoding of
`EM ^ e mod n`, and `EM < n`. -/
theorem PKCS1_OAEP_encrypt_eq (pub : PublicRsaKey) (size : Nat)
    (hlow : 2 ^ (size - 1) ≤ pub.n) (hhigh : pub.n < 2 ^ size) (hsize : 329 ≤ size)
    (msg ros : List Nat) (hmsg : IsBytes msg) (hroslen : ros.length = 20) (hros : IsBytes ros)
    (hcap : msg.length + 42 ≤ (size + 7) / 8) :
    PKCS1_OAEP_encrypt pub msg ros
      = .ok (natToBytes ((size + 7) / 8)
          (powMod (bytesToNat (oaepEM ((size + 7) / 8) msg ros)) pub.e pub.n)) ∧
    bytesToNat (oaepEM ((size + 7) / 8) msg ros) < pub.n := by
  have hnpos : 0 < pub.n := lt_of_lt_of_le (Nat.pos_pow_of_pos _ (by omega)) hlow
  have hmod : bitLen pub.n = size := bitLen_eq_of_bounds _ _ (by omega) hlow hhigh
  have hn256K : pub.n < 256 ^ ((size + 7) / 8) := by
    calc pub.n < 2 ^ size := hhigh
      _ ≤ 2 ^ (8 * ((size + 7) / 8)) := Nat.pow_le_pow_right (by omega) (by omega)
      _ = 256 ^ ((size + 7) / 8) := by rw [pow_mul]; norm_num
  set K := (size + 7) / 8 with hKdef
  have hEMI_lt : bytesToNat (oaepEM K msg ros) < pub.n := by
    unfold oaepEM
    rw [bytesToNat_cons_zero]
    have hbytes : IsBytes (xorBytes ros (MGF1 (oaepMDB K msg ros) 20) ++ oaepMDB K msg ros) := by
      intro b hb
      simp only [List.mem_append] at hb
      rcases hb with hb | hb
      · exact isBytes_xorBytes _ _ hros (isBytes_MGF1 _ _) b hb
      · exact oaepMDB_bytes K msg ros hmsg b hb
    have h1 := bytesToNat_lt _ hbytes
    have h2 : (xorBytes ros (MGF1 (oaepMDB K msg ros) 20) ++ oaepMDB K msg ros).length
        = K - 1 := by
      simp only [List.length_append, length_xorBytes, length_MGF1,
        oaepMDB_length K msg ros hcap]
      omega
    rw [h2] at h1
    calc bytesToNat _ < 256 ^ (K - 1) := h1
      _ = 2 ^ (8 * (K - 1)) := by rw [pow_mul]; norm_num
      _ ≤ 2 ^ (size - 1) := Nat.pow_le_pow_right (by omega) (by omega)
      _ ≤ pub.n := hlow
  refine ⟨?_, hEMI_lt⟩
  simp only [PKCS1_OAEP_encrypt, hmod, ← hKdef]
  rw [if_neg (by omega)]
  have hfold : (0 : Nat) :: (xorBytes ros
        (MGF1 (xorBytes (sha1 [] ++ List.replicate (K - msg.length - 2 * 20 - 2) 0 ++ [1] ++ msg)
          (MGF1 ros (K - 20 - 1))) 20)
      ++ xorBytes (sha1 [] ++ List.replicate (K - msg.length - 2 * 20 - 2) 0 ++ [1] ++ msg)
          (MGF1 ros (K - 20 - 1))) = oaepEM K msg ros := rfl
  rw [hfold]
  rw [if_neg (by omega)]
  rw [longToBytes_eq _ _ (by omega) (lt_trans (powMod_lt _ _ _ hnpos) hn256K)]

/-- C3: capacity boundary of encryption: with SHA-1 OAEP (`hLen = 20`), a
plaintext of exactly `modulusSizeBytes - 2*hLen - 2` bytes encrypts
successfully, and one byte longer fails with the payload-too-large error
(`ValueError("Plaintext is too long.")`). -/
theorem C3_capacity_boundary (pub : PublicRsaKey) (size : Nat)
    (hlow : 2 ^ (size - 1) ≤ pub.n) (hhigh : pub.n < 2 ^ size) (hsize : 329 ≤ size)
    (m1 m2 : String) (ros : List Nat) (hroslen : ros.length = 20) (hros : IsBytes ros)
    (h1 : (utf8Encode m1).length = (size + 7) / 8 - 2 * 20 - 2)
    (h2 : (utf8Encode m2).length = (size + 7) / 8 - 2 * 20 - 1) :
    (∃ ct, encrypt_message m1 pub.export_key ros = .ok ct) ∧
    encrypt_message m2 pub.export_key ros = .error .plaintextTooLong := by
  have hK42 : 42 ≤ (size + 7) / 8 := by omega
  constructor
  · obtain ⟨henc, _⟩ := PKCS1_OAEP_encrypt_eq pub size hlow hhigh hsize (utf8Encode m1) ros
      (isBytes_utf8Encode m1) hroslen hros (by omega)
    have hem : encrypt_message m1 pub.export_key ros
        = .ok (base64Encode (natToBytes ((size + 7) / 8)
          (powMod (bytesToNat (oaepEM ((size + 7) / 8) (utf8Encode m1) ros)) pub.e pub.n))) := by
      simp only [encrypt_message]
      have himp : importPublicKey pub.export_key = pub := rfl
      rw [himp, henc]
      rfl
    exact ⟨_, hem⟩
  · have hmod : bitLen pub.n = size := bitLen_eq_of_bounds _ _ (by omega) hlow hhigh
    simp only [encrypt_message]
    have himp : importPublicKey pub.export_key = pub := rfl
    rw [himp]
    have herr : PKCS1_OAEP_encrypt pub (utf8Encode m2) ros = .error .plaintextTooLong := by
      simp only [PKCS1_OAEP_encrypt, hmod]
      rw [if_pos (by omega)]
    rw [herr]
    rfl

/-- A concrete public key with a 2048-bit modulus (encryption touches
only `n` and `e`, so no factorization is needed for the boundary
witness). -/
def C3pub : PublicRsaKey := ⟨2 ^ 2047 + 1, 65537⟩

/-- Witness for C3 at a 2048-bit modulus: 214 bytes succeed, 215 fail. -/
theorem C3_capacity_boundary_witness :
    (∃ ct, encrypt_message (String.mk (List.replicate 214 'a')) C3pub.export_key
      (List.range 20) = .ok ct) ∧
    encrypt_message (String.mk (List.replicate 215 'a')) C3pub.export_key
      (List.range 20) = .error .plaintextTooLong :=
  C3_capacity_boundary C3pub 2048 (by decide) (by decide) (by decide)
    (String.mk (List.replicate 214 'a')) (String.mk (List.replicate 215 'a'))
    (List.range 20) (by decide) (by decide) (by decide) (by decide)

/-- Unmasking recovers the seed: equal OAEP encoded messages built from
the same data block force equal seeds. -/
theorem oaepEM_inj (K : Nat) (msg s1 s2 : List Nat)
    (h1 : s1.length = 20) (h2 : s2.length = 20)
    (heq : oaepEM K msg s1 = oaepEM K msg s2) : s1 = s2 := by
  unfold oaepEM at heq
  injection heq with _ heq
  have hlen1 : (xorBytes s1 (MGF1 (oaepMDB K msg s1) 20)).length = 20 := by
    rw [length_xorBytes, length_MGF1]
    omega
  have hlen2 : (xorBytes s2 (MGF1 (oaepMDB K msg s2) 20)).length = 20 := by
    rw [length_xorBytes, length_MGF1]
    omega
  obtain ⟨hMS, hMDB⟩ := List.append_inj heq (by rw [hlen1, hlen2])
  have hs1 : s1 = xorBytes (xorBytes s1 (MGF1 (oaepMDB K msg s1) 20))
      (MGF1 (oaepMDB K msg s1) 20) :=
    (xorBytes_cancel s1 _ (by rw [length_MGF1, h1])).symm
  rw [hs1, hMS, hMDB]
  exact xorBytes_cancel s2 _ (by rw [length_MGF1, h2])

set_option maxHeartbeats 2000000 in
/-- C8: encryption is randomized: two calls on the same plaintext and
public key that draw different OAEP seeds produce different ciphertexts,
so ciphertext equality across runs is not guaranteed. -/
theorem C8_randomized (entropy : RSAKey) (size : Nat)
    (hsize : size = 2048 ∨ size = 3072 ∨ size = 4096)
    (hgen : GeneratedKey entropy size)
    (m : String) (hm : (utf8Encode m).length + 42 ≤ (size + 7) / 8)
    (s1 s2 : List Nat) (h1len : s1.length = 20) (h1b : IsBytes s1)
    (h2len : s2.length = 20) (h2b : IsBytes s2) (hne : s1 ≠ s2) :
    encrypt_message m entropy.publickey.export_key s1
      ≠ encrypt_message m entropy.publickey.export_key s2 := by
  have hsz : 329 ≤ size := by rcases hsize with rfl | rfl | rfl <;> omega
  have hlow : 2 ^ (size - 1) ≤ entropy.publickey.n := hgen.n_lower
  have hhigh : entropy.publickey.n < 2 ^ size := hgen.n_upper
  have hnpos : 0 < entropy.n := lt_of_lt_of_le (Nat.pos_pow_of_pos _ (by omega)) hgen.n_lower
  have hn256K : entropy.n < 256 ^ ((size + 7) / 8) := by
    calc entropy.n < 2 ^ size := hgen.n_upper
      _ ≤ 2 ^ (8 * ((size + 7) / 8)) := Nat.pow_le_pow_right (by omega) (by omega)
      _ = 256 ^ ((size + 7) / 8) := by rw [pow_mul]; norm_num
  obtain ⟨he1, hlt1⟩ := PKCS1_OAEP_encrypt_eq entropy.publickey size hlow hhigh hsz
    (utf8Encode m) s1 (isBytes_utf8Encode m) h1len h1b hm
  obtain ⟨he2, hlt2⟩ := PKCS1_OAEP_encrypt_eq entropy.publickey size hlow hhigh hsz
    (utf8Encode m) s2 (isBytes_utf8Encode m) h2len h2b hm
  simp only [publickey_n, publickey_e] at he1 he2 hlt1 hlt2
  set K := (size + 7) / 8 with hKdef
  set EMI1 := bytesToNat (oaepEM K (utf8Encode m) s1) with hEMI1def
  set EMI2 := bytesToNat (oaepEM K (utf8Encode m) s2) with hEMI2def
  intro hcontra
  have hc1 : encrypt_message m entropy.publickey.export_key s1
      = .ok (base64Encode (natToBytes K (powMod EMI1 entropy.e entropy.n))) := by
    simp only [encrypt_message]
    rw [show importPublicKey entropy.publickey.export_key = entropy.publickey from rfl, he1]
    rfl
  have hc2 : encrypt_message m entropy.publickey.export_key s2
      = .ok (base64Encode (natToBytes K (powMod EMI2 entropy.e entropy.n))) := by
    simp only [encrypt_message]
    rw [show importPublicKey entropy.publickey.export_key = entropy.publickey from rfl, he2]
    rfl
  rw [hc1, hc2] at hcontra
  have hstr : base64Encode (natToBytes K (powMod EMI1 entropy.e entropy.n))
      = base64Encode (natToBytes K (powMod EMI2 entropy.e entropy.n)) :=
    Except.ok.inj hcontra
  have hct : natToBytes K (powMod EMI1 entropy.e entropy.n)
      = natToBytes K (powMod EMI2 entropy.e entropy.n) := by
    have d1 := base64Decode_base64Encode _ (isBytes_natToBytes K (powMod EMI1 entropy.e entropy.n))
    have d2 := base64Decode_base64Encode _ (isBytes_natToBytes K (powMod EMI2 entropy.e entropy.n))
    rw [hstr] at d1
    rw [d2] at d1
    exact (Option.some.inj d1).symm
  have hX : powMod EMI1 entropy.e entropy.n = powMod EMI2 entropy.e entropy.n := by
    have hcong := congrArg bytesToNat hct
    rwa [bytesToNat_natToBytes _ _ (lt_trans (powMod_lt _ _ _ hnpos) hn256K),
      bytesToNat_natToBytes _ _ (lt_trans (powMod_lt _ _ _ hnpos) hn256K)] at hcong
  have hED1 : 1 ≤ entropy.e * entropy.d := by
    have hd := hgen.d_pos
    have he := hgen.e_eq
    have : 0 < entropy.e * entropy.d := Nat.mul_pos (by omega) hd
    omega
  have hEMI : EMI1 = EMI2 := by
    have r1 := rsa_pow_roundtrip entropy size hgen entropy.e entropy.d hgen.ed_congr hED1
      EMI1 hlt1
    have r2 := rsa_pow_roundtrip entropy size hgen entropy.e entropy.d hgen.ed_congr hED1
      EMI2 hlt2
    rw [hX] at r1
    exact r1.symm.trans r2
  have hEMlist : oaepEM K (utf8Encode m) s1 = oaepEM K (utf8Encode m) s2 := by
    have e1 : natToBytes K EMI1 = oaepEM K (utf8Encode m) s1 := by
      rw [hEMI1def]
      nth_rewrite 1 [← oaepEM_length K (utf8Encode m) s1 hm h1len]
      exact natToBytes_bytesToNat _ (oaepEM_bytes K (utf8Encode m) s1 (isBytes_utf8Encode m) h1b)
    have e2 : natToBytes K EMI2 = oaepEM K (utf8Encode m) s2 := by
      rw [hEMI2def]
      nth_rewrite 1 [← oaepEM_length K (utf8Encode m) s2 hm h2len]
      exact natToBytes_bytesToNat _ (oaepEM_bytes K (utf8Encode m) s2 (isBytes_utf8Encode m) h2b)
    rw [← e1, ← e2, hEMI]
  exact hne (oaepEM_inj K (utf8Encode m) s1 s2 h1len h2len hEMlist)

/-- Witness for C8 at the 2048-bit certified key with two concrete
distinct seeds. -/
theorem C8_randomized_witness :
    encrypt_message "Ceylon Bank Confidential Transaction: Transfer $50,000 to Account #12345678"
        KEY2048.publickey.export_key (List.range 20)
      ≠ encrypt_message "Ceylon Bank Confidential Transaction: Transfer $50,000 to Account #12345678"
        KEY2048.publickey.export_key (List.replicate 20 0) :=
  C8_randomized KEY2048 2048 (Or.inl rfl) KEY2048_generated
    "Ceylon Bank Confidential Transaction: Transfer $50,000 to Account #12345678"
    (by decide) (List.range 20) (List.replicate 20 0)
    (by decide) (by decide) (by decide) (by decide) (by decide)

/-- A nonempty list is its default-headed head consed onto its tail. -/
theorem eq_cons_headD_drop (l : List Nat) (hne : 0 < l.length) :
    l = l.headD 0 :: l.drop 1 := by
  cases l with
  | nil => simp at hne
  | cons b t => rfl

/-- Completeness of the OAEP decryption checks: whenever decryption of a
ciphertext succeeds, the ciphertext is exactly what OAEP encryption under
the matching public key produces for the recovered plaintext and the
recovered seed.  Contrapositively, every ciphertext not produced by the
matching public key is rejected with an error. -/
theorem oaep_decrypt_complete (k : RSAKey) (bits : Nat) (hk : GeneratedKey k bits)
    (hbits : 329 ≤ bits) (ct msgB : List Nat) (hct : IsBytes ct)
    (h : PKCS1_OAEP_decrypt k ct = .ok msgB) :
    ∃ ros, ros.length = 20 ∧ IsBytes ros ∧
      PKCS1_OAEP_encrypt k.publickey msgB ros = .ok ct := by
  have hnlow := hk.n_lower
  have hnhigh := hk.n_upper
  have hnpos : 0 < k.n := lt_of_lt_of_le (Nat.pos_pow_of_pos _ (by omega)) hnlow
  have hmod : bitLen k.n = bits := bitLen_eq_of_bounds _ _ (by omega) hnlow hnhigh
  have hn256K : k.n < 256 ^ ((bits + 7) / 8) := by
    calc k.n < 2 ^ bits := hnhigh
      _ ≤ 2 ^ (8 * ((bits + 7) / 8)) := Nat.pow_le_pow_right (by omega) (by omega)
      _ = 256 ^ ((bits + 7) / 8) := by rw [pow_mul]; norm_num
  simp only [PKCS1_OAEP_decrypt, hmod] at h
  set K := (bits + 7) / 8 with hKdef
  by_cases hc1 : ct.length ≠ K ∨ K < 20 + 2
  · rw [if_pos hc1] at h
    simp at h
  rw [if_neg hc1] at h
  push_neg at hc1
  obtain ⟨hctlen, hK22⟩ := hc1
  by_cases hc2 : k.n ≤ bytesToNat ct
  · rw [if_pos hc2] at h
    simp at h
  rw [if_neg hc2] at h
  push_neg at hc2
  have hmlt : powMod (bytesToNat ct) k.d k.n < k.n := powMod_lt _ _ _ hnpos
  have hm256 : powMod (bytesToNat ct) k.d k.n < 256 ^ K := lt_trans hmlt hn256K
  have hEMdef : oaepDecEM k K ct = natToBytes K (powMod (bytesToNat ct) k.d k.n) := by
    unfold oaepDecEM
    exact longToBytes_eq _ K (by omega) hm256
  rw [hEMdef] at h
  set EM := natToBytes K (powMod (bytesToNat ct) k.d k.n) with hEMset
  have hEMlen : EM.length = K := length_natToBytes K _
  have hEMbytes : IsBytes EM := isBytes_natToBytes K _
  have hEMint : bytesToNat EM = powMod (bytesToNat ct) k.d k.n :=
    bytesToNat_natToBytes K _ hm256
  by_cases hc3 : (oaepDecDB EM K).length < 20
  · rw [if_pos hc3] at h
    simp at h
  rw [if_neg hc3] at h
  push_neg at hc3
  split at h
  · simp at h
  rename_i i heq
  split at h
  · simp at h
  rename_i hflag
  push_neg at hflag
  obtain ⟨hy, hlh, hall⟩ := hflag
  have hmsg : (oaepDecDB EM K).drop (20 + i + 1) = msgB := Except.ok.inj h
  obtain ⟨hilt, hdecomp, -⟩ := bytesFind_spec 1 _ i heq
  have htakelen : (((oaepDecDB EM K).drop 20).take i).length = i := by
    rw [List.length_take]
    omega
  have htake : ((oaepDecDB EM K).drop 20).take i = List.replicate i 0 := by
    have hrep := eq_replicate_of_all_zero _ hall
    rwa [htakelen] at hrep
  have hdbK : (oaepDecDB EM K).length = K - 21 := by
    unfold oaepDecDB
    rw [length_xorBytes, length_MGF1, List.length_drop, hEMlen]
    omega
  have hdd : ((oaepDecDB EM K).drop 20).drop (i + 1) = (oaepDecDB EM K).drop (20 + i + 1) := by
    rw [List.drop_drop]
    rfl
  have hdbsplit : oaepDecDB EM K = sha1 [] ++ (List.replicate i 0 ++ 1 :: msgB) := by
    conv_lhs => rw [← List.take_append_drop 20 (oaepDecDB EM K)]
    rw [hlh, hdecomp, htake, hdd, hmsg]
  have hKeq : K = 42 + i + msgB.length := by
    have h1 := hdbK
    rw [hdbsplit] at h1
    simp only [List.length_append, List.length_replicate, List.length_cons, length_sha1] at h1
    omega
  have hsdlen : (oaepDecSeed EM).length = 20 := by
    unfold oaepDecSeed
    rw [length_xorBytes, length_MGF1, List.length_take, List.length_drop, hEMlen]
    omega
  have hsdbytes : IsBytes (oaepDecSeed EM) := by
    unfold oaepDecSeed
    refine isBytes_xorBytes _ _ ?_ (isBytes_MGF1 _ _)
    intro b hb
    exact hEMbytes b (List.mem_of_mem_drop (List.mem_of_mem_take hb))
  have hdbbytes : IsBytes (oaepDecDB EM K) := by
    unfold oaepDecDB
    refine isBytes_xorBytes _ _ ?_ (isBytes_MGF1 _ _)
    intro b hb
    exact hEMbytes b (List.mem_of_mem_drop hb)
  have hmsgbytes : IsBytes msgB := by
    intro b hb
    rw [← hmsg] at hb
    exact hdbbytes b (List.mem_of_mem_drop hb)
  have hcap : msgB.length + 42 ≤ (bits + 7) / 8 := by
    rw [← hKdef]
    omega
  obtain ⟨henc, -⟩ := PKCS1_OAEP_encrypt_eq k.publickey bits
    (by rw [publickey_n]; exact hnlow) (by rw [publickey_n]; exact hnhigh) hbits
    msgB (oaepDecSeed EM) hmsgbytes hsdlen hsdbytes hcap
  rw [← hKdef] at henc
  simp only [publickey_n, publickey_e] at henc
  have hoaepDB : oaepDB K msgB = oaepDecDB EM K := by
    unfold oaepDB
    rw [hdbsplit]
    have hps : K - msgB.length - 2 * 20 - 2 = i := by omega
    rw [hps]
    simp [List.append_assoc]
  have hMDB : oaepMDB K msgB (oaepDecSeed EM) = EM.drop (20 + 1) := by
    unfold oaepMDB
    rw [hoaepDB]
    show xorBytes (oaepDecDB EM K) (MGF1 (oaepDecSeed EM) (K - 20 - 1)) = EM.drop (20 + 1)
    unfold oaepDecDB
    exact xorBytes_cancel _ _ (by rw [List.length_drop, hEMlen, length_MGF1]; omega)
  have hMSeq : xorBytes (oaepDecSeed EM) (MGF1 (oaepMDB K msgB (oaepDecSeed EM)) 20)
      = (EM.drop 1).take 20 := by
    rw [hMDB]
    show xorBytes (oaepDecSeed EM) (MGF1 (EM.drop (20 + 1)) 20) = (EM.drop 1).take 20
    unfold oaepDecSeed
    exact xorBytes_cancel _ _ (by
      rw [List.length_take, List.length_drop, hEMlen, length_MGF1]
      omega)
  have hEMcons : EM = 0 :: EM.drop 1 := by
    have hc := eq_cons_headD_drop EM (by rw [hEMlen]; omega)
    rwa [hy] at hc
  have hEMtail : (EM.drop 1).take 20 ++ EM.drop (20 + 1) = EM.drop 1 := by
    have hdd2 : EM.drop (20 + 1) = (EM.drop 1).drop 20 := (List.drop_drop 20 1 EM).symm
    rw [hdd2]
    exact List.take_append_drop 20 (EM.drop 1)
  have hoaepEM : oaepEM K msgB (oaepDecSeed EM) = EM := by
    unfold oaepEM
    rw [hMSeq, hMDB, hEMtail, ← hEMcons]
  refine ⟨oaepDecSeed EM, hsdlen, hsdbytes, ?_⟩
  rw [henc, hoaepEM, hEMint]
  have hdpos := hk.d_pos
  have hee := hk.e_eq
  have hde : k.d * k.e ≡ 1 [MOD Nat.lcm (k.p - 1) (k.q - 1)] := by
    rw [mul_comm]
    exact hk.ed_congr
  have hde1 : 1 ≤ k.d * k.e := Nat.mul_pos hdpos (by omega)
  have hrt : powMod (powMod (bytesToNat ct) k.d k.n) k.e k.n = bytesToNat ct :=
    rsa_pow_roundtrip k bits hk k.d k.e hde hde1 _ hc2
  rw [hrt, ← hctlen, natToBytes_bytesToNat ct hct]

/-- Inversion of a successful `Except` bind. -/
theorem except_bind_ok {α β : Type} (x : Except PyError α) (f : α → Except PyError β) (b : β)
    (h : x >>= f = .ok b) : ∃ a, x = .ok a ∧ f a = .ok b := by
  cases x with
  | error e => exact absurd h (by intro hc; exact Except.noConfusion hc)
  | ok a => exact ⟨a, rfl, h⟩

/-- C4: decryption failure conditions of `decrypt_message`.  Part one: a
ciphertext whose base64-decoded byte length differs from the modulus byte
length fails with the library's incorrect-length error.  Part two
(cross-key rejection and padding validation, stated as completeness):
whenever `decrypt_message` succeeds, the decoded bytes are exactly a
ciphertext that OAEP encryption under the matching public key produces
for the returned plaintext with some 20-byte seed; hence a ciphertext
produced by any other key pair, or with failing padding, is rejected
with an error. -/
theorem C4_decrypt_failures (entropy : RSAKey) (size : Nat)
    (hsize : size = 2048 ∨ size = 3072 ∨ size = 4096)
    (hgen : GeneratedKey entropy size) :
    (∀ s ct, base64Decode s = some ct → ct.length ≠ (size + 7) / 8 →
      decrypt_message s entropy.export_key = .error .ciphertextIncorrectLength) ∧
    (∀ s m, decrypt_message s entropy.export_key = .ok m →
      ∃ ct ros, base64Decode s = some ct ∧ ros.length = 20 ∧ IsBytes ros ∧
        encrypt_message m entropy.publickey.export_key ros = .ok (base64Encode ct)) := by
  have hsz : 329 ≤ size := by rcases hsize with rfl | rfl | rfl <;> omega
  have hnlow := hgen.n_lower
  have hnhigh := hgen.n_upper
  have hmod : bitLen entropy.n = size := bitLen_eq_of_bounds _ _ (by omega) hnlow hnhigh
  constructor
  · intro s ct hdec hlen
    unfold decrypt_message
    rw [show importPrivateKey entropy.export_key = entropy from rfl, hdec]
    show (do
      let decrypted ← PKCS1_OAEP_decrypt entropy ct
      match utf8Decode decrypted with
      | some str => pure str
      | none => Except.error PyError.unicodeDecodeFailed)
      = Except.error PyError.ciphertextIncorrectLength
    have hd : PKCS1_OAEP_decrypt entropy ct = .error .ciphertextIncorrectLength := by
      simp only [PKCS1_OAEP_decrypt, hmod]
      rw [if_pos (Or.inl hlen)]
    rw [hd]
    rfl
  · intro s m hok
    rcases hb64 : base64Decode s with _ | ct
    · have hch : decrypt_message s entropy.export_key = .error PyError.base64DecodeFailed := by
        unfold decrypt_message
        rw [show importPrivateKey entropy.export_key = entropy from rfl, hb64]
        rfl
      rw [hch] at hok
      simp at hok
    · have hch : decrypt_message s entropy.export_key
          = (do
              let decrypted ← PKCS1_OAEP_decrypt entropy ct
              match utf8Decode decrypted with
              | some str => pure str
              | none => Except.error PyError.unicodeDecodeFailed) := by
        unfold decrypt_message
        rw [show importPrivateKey entropy.export_key = entropy from rfl, hb64]
        rfl
      rw [hch] at hok
      obtain ⟨msgB, hdec, hrest⟩ := except_bind_ok _ _ _ hok
      split at hrest
      · rename_i str hutf
        have hms : str = m := Except.ok.inj hrest
        subst hms
        have hue : utf8Encode str = msgB := utf8Encode_of_utf8Decode msgB str hutf
        have hctb : IsBytes ct := isBytes_base64Decode s ct hb64
        obtain ⟨ros, hrl, hrb, henc⟩ := oaep_decrypt_complete entropy size hgen hsz ct msgB hctb hdec
        refine ⟨ct, ros, rfl, hrl, hrb, ?_⟩
        simp only [encrypt_message]
        rw [show importPublicKey entropy.publickey.export_key = entropy.publickey from rfl]
        rw [hue, henc]
        rfl
      · simp at hrest

/-- Witness for C4 at the 2048-bit certified key: the four-character
ciphertext decodes to three bytes, not the 256-byte modulus length, and
is rejected with the incorrect-length error. -/
theorem C4_decrypt_failures_witness :
    decrypt_message "AAAA" KEY2048.export_key = .error .ciphertextIncorrectLength :=
  (C4_decrypt_failures KEY2048 2048 (Or.inl rfl) KEY2048_generated).1 "AAAA" [0, 0, 0]
    (by decide) (by decide)
